import Mathlib

set_option maxHeartbeats 1000000
set_option maxRecDepth 8000

/- Shallow embedding of src/planner.py: a search-based planner for a
   vacuum world.  Grids are lists of rows of characters (the parsed
   Python list-of-lists), positions are pairs of integers (Python
   ints), and the dirty set is a finite set of positions (Python
   frozenset, whose equality is order independent). -/

/-- A search state: agent position plus remaining dirty cells (class
State in planner.py).  Equality is structural over both fields,
matching State.__eq__ / State.__hash__. -/
structure State where
  position : Int × Int
  dirty : Finset (Int × Int)
deriving DecidableEq

/-- Directions and movement vectors, listed in the insertion order of
the MOVES dict in planner.py (N, S, E, W), the order dict iteration
follows. -/
def MOVES : List (Char × (Int × Int)) :=
  [('N', (-1, 0)), ('S', (1, 0)), ('E', (0, 1)), ('W', (0, -1))]

/-- One step of the neighbor-accumulation loop in get_neighbors: append
a move successor iff the candidate cell is within bounds and not a
wall.  Python evaluates `0 <= nr < len(grid) and 0 <= nc < len(grid[0])`
and then indexes grid[nr][nc]; the getD accesses agree with that
indexing whenever the grid is rectangular (on a ragged row CPython
would raise IndexError instead; the '#' default makes the model treat
such cells as walls, which no claim depends on). -/
def moveStep (grid : List (List Char)) (s : State) (acc : List (Char × State))
    (m : Char × (Int × Int)) : List (Char × State) :=
  let nr : Int := s.position.1 + m.2.1
  let nc : Int := s.position.2 + m.2.2
  if 0 ≤ nr ∧ nr < (grid.length : Int) ∧ 0 ≤ nc ∧ nc < ((grid.headD []).length : Int) then
    if (grid.getD nr.toNat []).getD nc.toNat '#' ≠ '#' then
      acc ++ [(m.1, ⟨(nr, nc), s.dirty⟩)]
    else acc
  else acc

/-- get_neighbors(state, grid) from planner.py: move successors in the
order N, S, E, W (dirty set unchanged), then a Vacuum successor when
the current cell is dirty (same position, current position removed from
the dirty set). -/
def get_neighbors (s : State) (grid : List (List Char)) : List (Char × State) :=
  let moves := MOVES.foldl (moveStep grid s) []
  if s.position ∈ s.dirty then
    moves ++ [('V', ⟨s.position, s.dirty.erase s.position⟩)]
  else moves

/-- Closed form of one directional move attempt, used to state the
emission-order property of get_neighbors. -/
def moveOpt (grid : List (List Char)) (s : State) (a : Char) (dr dc : Int) :
    List (Char × State) :=
  let nr : Int := s.position.1 + dr
  let nc : Int := s.position.2 + dc
  if 0 ≤ nr ∧ nr < (grid.length : Int) ∧ 0 ≤ nc ∧ nc < ((grid.headD []).length : Int) then
    if (grid.getD nr.toNat []).getD nc.toNat '#' ≠ '#' then
      [(a, ⟨(nr, nc), s.dirty⟩)]
    else []
  else []

/-- Closed form of the Vacuum successor emission. -/
def vacOpt (s : State) : List (Char × State) :=
  if s.position ∈ s.dirty then
    [('V', ⟨s.position, s.dirty.erase s.position⟩)]
  else []

/-- The action semantics induced by the successor generator: the unique
successor of s labelled a, if any.  This is the execution model for
"action sequences" in the spec. -/
def applyA (grid : List (List Char)) (s : State) (a : Char) : Option State :=
  ((get_neighbors s grid).find? (fun x => x.1 == a)).map (fun x => x.2)

/-- Execute an action sequence from a state (none if some action is
illegal there). -/
def execList (grid : List (List Char)) : State → List Char → Option State
  | s, [] => some s
  | s, a :: rest =>
    match applyA grid s a with
    | some t => execList grid t rest
    | none => none

/-- acts is an action sequence that clears all dirt starting from s. -/
def SolvesFrom (grid : List (List Char)) (s : State) (acts : List Char) : Prop :=
  ∃ t, execList grid s acts = some t ∧ t.dirty = ∅

/-- v is reachable from s0 in exactly n successor steps. -/
inductive Reach (grid : List (List Char)) (s0 : State) : State → Nat → Prop where
  | refl : Reach grid s0 s0 0
  | tail : ∀ {u n a v}, Reach grid s0 u n → applyA grid u a = some v →
      Reach grid s0 v (n + 1)

/-- First-match association-list lookup.  Python dict reads are modelled
by this and dict writes by consing a new binding in front (the newest
binding wins, matching dict overwrite semantics). -/
def lookupA {α β : Type} [DecidableEq α] : List (α × β) → α → Option β
  | [], _ => none
  | (k, v) :: rest, q => if q = k then some v else lookupA rest q

/-- Frontier entries of ucs: (cumulative cost, identity key, state),
mirroring the tuples (cost, id(state), state) pushed onto the heapq
frontier. -/
abbrev HeapEntry := Nat × Nat × State

/-- Lexicographic order on (cost, identity key).  heapq pops the
smallest tuple; with pairwise distinct identity keys the State
component of the tuple is never compared (State defines no ordering
in Python). -/
def entryLE (e f : HeapEntry) : Prop :=
  e.1 < f.1 ∨ (e.1 = f.1 ∧ e.2.1 ≤ f.2.1)

instance instEntryLEDec (e f : HeapEntry) : Decidable (entryLE e f) := by
  unfold entryLE
  infer_instance

/-- Remove a minimal entry from the frontier list: the observable
effect of heapq.heappop on the heap contents (ties on the full key keep
the earlier list entry; with injective identity keys full ties never
arise). -/
def popMin : List HeapEntry → Option (HeapEntry × List HeapEntry)
  | [] => none
  | e :: es =>
    match popMin es with
    | none => some (e, [])
    | some (m, rest) => if entryLE e m then some (e, es) else some (m, e :: rest)

/-- reconstruct_path from planner.py, with explicit fuel for its while
loop; ucs invokes it with fuel one larger than the cost of the goal,
which the invariants show is exactly the chain length needed. -/
def reconstruct_path (cf : List (State × Option (Char × State))) :
    State → Nat → Option (List Char)
  | _, 0 => none
  | s, fuel + 1 =>
    match lookupA cf s with
    | none => none
    | some none => some []
    | some (some (a, p)) => (reconstruct_path cf p fuel).map (fun l => l ++ [a])

/-- A successful search result: the action path plus the two counters. -/
structure Result where
  path : List Char
  generated : Nat
  expanded : Nat
deriving DecidableEq

/-- Outcome of a fueled search run.  fuelOut is a model artifact
(insufficient fuel), never a program behavior. -/
inductive SearchOutcome where
  | fuelOut : SearchOutcome
  | noSolution : SearchOutcome
  | found : Result → SearchOutcome
deriving DecidableEq

/-- The mutable bookkeeping of one ucs invocation: frontier heap,
cost_so_far, came_from, the number of pushes so far (used to index the
identity-key assignment), and the generated counter. -/
structure UcsState where
  H : List HeapEntry
  CM : List (State × Nat)
  CF : List (State × Option (Char × State))
  pc : Nat
  gen : Nat

/-- Relax one successor (a, v) of a state s popped at cost c: push iff
v has no recorded cost or the new cost is strictly smaller (the loop
body of ucs over get_neighbors). -/
def relaxOne (tb : Nat → Nat) (c : Nat) (s : State) (st : UcsState)
    (x : Char × State) : UcsState :=
  let nc := c + 1
  match lookupA st.CM x.2 with
  | none =>
    ⟨(nc, tb st.pc, x.2) :: st.H, (x.2, nc) :: st.CM,
      (x.2, some (x.1, s)) :: st.CF, st.pc + 1, st.gen + 1⟩
  | some cv =>
    if nc < cv then
      ⟨(nc, tb st.pc, x.2) :: st.H, (x.2, nc) :: st.CM,
        (x.2, some (x.1, s)) :: st.CF, st.pc + 1, st.gen + 1⟩
    else st

/-- Relax every successor of s in emission order. -/
def relaxAll (grid : List (List Char)) (tb : Nat → Nat) (c : Nat) (s : State)
    (st : UcsState) : UcsState :=
  (get_neighbors s grid).foldl (relaxOne tb c s) st

/-- The ucs main loop: pop the minimum frontier entry, count it as
expanded, reconstruct and return the path if its dirty set is empty,
otherwise relax all successors. -/
def ucsLoop (grid : List (List Char)) (tb : Nat → Nat) :
    Nat → UcsState → Nat → SearchOutcome
  | 0, _, _ => .fuelOut
  | fuel + 1, st, exp =>
    match popMin st.H with
    | none => .noSolution
    | some ((c, _, s), hRest) =>
      if s.dirty = ∅ then
        match reconstruct_path st.CF s (c + 1) with
        | some p => .found ⟨p, st.gen, exp + 1⟩
        | none => .fuelOut
      else
        ucsLoop grid tb fuel (relaxAll grid tb c s ⟨hRest, st.CM, st.CF, st.pc, st.gen⟩)
          (exp + 1)

/-- ucs(start_state, grid) from planner.py.  tb models CPython id():
an assignment of identity keys to pushes in push order (the initial
entry uses tb 0).  All pushed State objects stay referenced by
cost_so_far and came_from for the whole run, so distinct pushes carry
distinct ids: tb is injective for faithful runs. -/
def ucs (grid : List (List Char)) (s0 : State) (tb : Nat → Nat) (fuel : Nat) :
    SearchOutcome :=
  ucsLoop grid tb fuel ⟨[(0, tb 0, s0)], [(s0, 0)], [(s0, none)], 1, 0⟩ 0

/-- The dfs main loop.  The head of the list is the top of the stack;
Python appends reversed(get_neighbors(...)) to the stack end, so the
first-emitted neighbor is popped first, which equals prepending the
not-yet-visited neighbors in emission order. -/
def dfsLoop (grid : List (List Char)) :
    Nat → List (State × List Char) → Finset State → Nat → Nat → SearchOutcome
  | 0, _, _, _, _ => .fuelOut
  | _ + 1, [], _, _, _ => .noSolution
  | fuel + 1, (s, path) :: rest, visited, gen, exp =>
    if s ∈ visited then dfsLoop grid fuel rest visited gen exp
    else
      if s.dirty = ∅ then .found ⟨path, gen, exp + 1⟩
      else
        dfsLoop grid fuel
          (((get_neighbors s grid).filter (fun x => decide (x.2 ∉ insert s visited))).map
              (fun x => (x.2, path ++ [x.1])) ++ rest)
          (insert s visited)
          (gen + ((get_neighbors s grid).filter (fun x => decide (x.2 ∉ insert s visited))).length)
          (exp + 1)

/-- dfs(start_state, grid) from planner.py. -/
def dfs (grid : List (List Char)) (s0 : State) (fuel : Nat) : SearchOutcome :=
  dfsLoop grid fuel [(s0, [])] ∅ 0 0

/-- The lines a successful search prints: one action label per line,
then the generated and expanded counter lines. -/
def render (r : Result) : List String :=
  r.path.map (fun a => String.mk [a]) ++
    [Nat.repr r.generated ++ " nodes generated",
      Nat.repr r.expanded ++ " nodes expanded"]

/-- Errors parse_world can raise: UnicodeDecodeError from the utf-8-sig
decoder, or ValueError from int() on a header line.  Either propagates
uncaught to the top level in Python. -/
inductive ParseErr where
  | unicode : ParseErr
  | value : ParseErr
deriving DecidableEq

/-- Python str.strip() default whitespace (the ASCII fragment). -/
def pyIsSpace (ch : Char) : Bool :=
  ch == ' ' || ch == '\t' || ch == '\n' || ch == '\r' || ch == '\x0b' || ch == '\x0c'

/-- Python str.strip(): drop whitespace from both ends. -/
def pyStrip (s : List Char) : List Char :=
  ((s.dropWhile pyIsSpace).reverse.dropWhile pyIsSpace).reverse

/-- Digit-run accumulator for int(): ASCII digits with single
underscores allowed between digits. -/
def digitsVal : Nat → List Char → Option Nat
  | acc, [] => some acc
  | acc, '_' :: d :: rest =>
    if d.isDigit then digitsVal (acc * 10 + (d.toNat - 48)) rest else none
  | acc, d :: rest =>
    if d.isDigit then digitsVal (acc * 10 + (d.toNat - 48)) rest else none

/-- Python int(str): strip whitespace, optional sign, then a nonempty
digit run (ASCII digits; returns none where int() raises ValueError). -/
def pyInt (s : List Char) : Option Int :=
  let core : List Char → Option Int := fun u =>
    match u with
    | [] => none
    | d :: rest =>
      if d.isDigit then (digitsVal (d.toNat - 48) rest).map (fun n => (n : Int))
      else none
  match pyStrip s with
  | '+' :: u => core u
  | '-' :: u => (core u).map (fun z => -z)
  | u => core u

/-- A UTF-8 continuation byte. -/
def isCont (b : Nat) : Bool := 0x80 ≤ b && b ≤ 0xBF

/-- UTF-8 decoding of a byte list with the semantics of CPython's
codecs stream reader, which calls utf_8_decode with final=False:
an invalid sequence (bad start byte, bad continuation byte, overlongs,
surrogates, code points above U+10FFFF) yields none, modelling
UnicodeDecodeError, while an INCOMPLETE multi-byte sequence at the end
of the input is not an error — the reader keeps those bytes buffered
forever, so they are simply dropped.  Each continuation byte is
validated in order, at the position CPython first rejects it; with one
exception the second-byte range checks fire even when the sequence is
truncated right after that byte: for 0xED the decoder's truncated path
accepts any continuation byte as possibly-continuing, so the surrogate
bound 0x9F is enforced only once a third byte is present. -/
def decodeUtf8 : List Nat → Option (List Char)
  | [] => some []
  | b :: bs =>
    if b ≤ 0x7F then (decodeUtf8 bs).map (fun cs => Char.ofNat b :: cs)
    else if 0xC2 ≤ b && b ≤ 0xDF then
      match bs with
      | [] => some []
      | b1 :: bs1 =>
        if isCont b1 then
          (decodeUtf8 bs1).map (fun cs => Char.ofNat ((b - 0xC0) * 64 + (b1 - 0x80)) :: cs)
        else none
    else if 0xE0 ≤ b && b ≤ 0xEF then
      match bs with
      | [] => some []
      | b1 :: bs1 =>
        if (if b = 0xE0 then 0xA0 else 0x80) ≤ b1 && b1 ≤ 0xBF then
          match bs1 with
          | [] => some []
          | b2 :: bs2 =>
            if b = 0xED && 0xA0 ≤ b1 then none
            else if isCont b2 then
              (decodeUtf8 bs2).map
                (fun cs =>
                  Char.ofNat ((b - 0xE0) * 4096 + (b1 - 0x80) * 64 + (b2 - 0x80)) :: cs)
            else none
        else none
    else if 0xF0 ≤ b && b ≤ 0xF4 then
      match bs with
      | [] => some []
      | b1 :: bs1 =>
        if (if b = 0xF0 then 0x90 else 0x80) ≤ b1 &&
            b1 ≤ (if b = 0xF4 then 0x8F else 0xBF) then
          match bs1 with
          | [] => some []
          | b2 :: bs2 =>
            if isCont b2 then
              match bs2 with
              | [] => some []
              | b3 :: bs3 =>
                if isCont b3 then
                  (decodeUtf8 bs3).map
                    (fun cs => Char.ofNat ((b - 0xF0) * 262144 + (b1 - 0x80) * 4096 +
                      (b2 - 0x80) * 64 + (b3 - 0x80)) :: cs)
                else none
            else none
        else none
    else none

/-- codecs.open(..., encoding='utf-8-sig'): strip one leading BOM byte
sequence if present, then decode UTF-8 as decodeUtf8 does.

Fidelity domain: the source decodes lazily — readline pulls 72-byte
chunks and decodes incrementally, so bytes beyond the lines the
program consumes may never be read.  This eager model agrees with the
reader exactly (i) on any input it decodes to some (the reader then
yields the same line sequence, reading '' past the end and dropping an
incomplete trailing sequence), and (ii) on any input of at most 72
bytes, one reader chunk: there an invalid sequence always raises
during the first readline, because the reader consumes the whole file
into its first chunk and refilling the 72-character buffer re-decodes
the bytes at the invalid sequence.  On longer inputs containing an
invalid sequence the model reports the error even when the program,
needing only earlier lines, would never read the bad bytes; no theorem
below asserts program behavior in that region. -/
def decodeSig : List Nat → Option (List Char)
  | 0xEF :: 0xBB :: 0xBF :: rest => decodeUtf8 rest
  | bs => decodeUtf8 bs

/-- Split decoded text into readline units.  The newline terminator
itself is irrelevant because every consumer (int(), strip()) strips
trailing whitespace; reading past the end yields '' like readline at
EOF does. -/
def splitNl : List Char → List (List Char)
  | [] => [[]]
  | '\n' :: rest => [] :: splitNl rest
  | c :: rest =>
    match splitNl rest with
    | [] => [[c]]
    | l :: ls => (c :: l) :: ls

/-- Process one enumerated character of a grid row (the inner loop of
parse_world): '@' records/overwrites the start and is stored as '_',
'*' is recorded dirty and stored, anything else is stored verbatim.
The accumulator is (row so far, start, dirty). -/
def parseRowChar (r : Nat)
    (acc : List Char × Option (Int × Int) × Finset (Int × Int)) (x : Nat × Char) :
    List Char × Option (Int × Int) × Finset (Int × Int) :=
  if x.2 = '@' then (acc.1 ++ ['_'], some ((r : Int), (x.1 : Int)), acc.2.2)
  else if x.2 = '*' then
    (acc.1 ++ ['*'], acc.2.1, insert ((r : Int), (x.1 : Int)) acc.2.2)
  else (acc.1 ++ [x.2], acc.2.1, acc.2.2)

/-- Process grid row r of parse_world: readline (missing lines read as
''), strip, scan the characters, append the built row to the grid. -/
def parseRow (lines : List (List Char))
    (acc : List (List Char) × Option (Int × Int) × Finset (Int × Int)) (r : Nat) :
    List (List Char) × Option (Int × Int) × Finset (Int × Int) :=
  let res := (pyStrip (lines.getD (2 + r) [])).enum.foldl (parseRowChar r)
    ([], acc.2.1, acc.2.2)
  (acc.1 ++ [res.1], res.2.1, res.2.2)

/-- parse_world from planner.py over the decoded line list: read the
two header integers (cols is read but never used afterwards), then scan
rows many lines.  No validation relates the header counts to the actual
grid: missing lines are read as '' and short lines produce short rows. -/
def parse_lines (cs : List Char) :
    Except ParseErr (List (List Char) × Option (Int × Int) × Finset (Int × Int)) :=
  let lines := splitNl cs
  match pyInt (lines.getD 0 []) with
  | none => .error .value
  | some _cols =>
    match pyInt (lines.getD 1 []) with
    | none => .error .value
    | some rows =>
      .ok ((List.range rows.toNat).foldl (parseRow lines) ([], none, ∅))

/-- parse_world from planner.py over the raw file bytes, with decoding
modelled eagerly by decodeSig; see decodeSig for the domain on which
this agrees with the lazy codecs reader (all decodable inputs, and all
single-chunk inputs of at most 72 bytes). -/
def parse_world (bs : List Nat) :
    Except ParseErr (List (List Char) × Option (Int × Int) × Finset (Int × Int)) :=
  match decodeSig bs with
  | none => .error .unicode
  | some cs => parse_lines cs

/-- Map a search outcome to (stdout lines, exit status) as main does:
found prints path and counters then falls off main (exit 0); frontier
exhaustion returns None from the search and main still exits 0 with
nothing printed.  fuelOut is propagated as none. -/
def outcomeToMain : SearchOutcome → Option (List String × Nat)
  | .fuelOut => none
  | .noSolution => some ([], 0)
  | .found r => some (render r, 0)

/-- Behavior of a search invoked on a world whose parse found no agent
marker, partially evaluating the first loop iteration of dfs/ucs on
State(None, dirty): both searches pop the start state and test its
dirty set before generating successors, so with no dirt they print no
actions, "0 nodes generated", "1 nodes expanded" and exit 0; with dirt
get_neighbors destructures the None position (r, c = state.position)
and raises TypeError, so stdout is empty and the exit status is 1. -/
def noneStartRun (dirty : Finset (Int × Int)) : Option (List String × Nat) :=
  if dirty = ∅ then some (render ⟨[], 0, 1⟩, 0) else some ([], 1)

/-- main from planner.py given the algorithm argument and the world
file bytes: parse_world runs first (an uncaught ParseErr leaves stdout
empty and exits nonzero), then the algorithm name is dispatched; an
unknown name prints a diagnostic and exits 1. -/
def mainModel (alg : String) (bs : List Nat) (tb : Nat → Nat) (fuel : Nat) :
    Option (List String × Nat) :=
  match parse_world bs with
  | .error _ => some ([], 1)
  | .ok (grid, startOpt, dirty) =>
    if alg = "depth-first" then
      match startOpt with
      | some p => outcomeToMain (dfs grid ⟨p, dirty⟩ fuel)
      | none => noneStartRun dirty
    else if alg = "uniform-cost" then
      match startOpt with
      | some p => outcomeToMain (ucs grid ⟨p, dirty⟩ tb fuel)
      | none => noneStartRun dirty
    else some (["Unknown algorithm: " ++ alg], 1)

/-- The grid is rectangular: every row is as long as the first.  This
is the World invariant of the spec; parse_world does not enforce it,
and on a ragged grid CPython's get_neighbors could raise IndexError. -/
def Rect (grid : List (List Char)) : Prop :=
  ∀ row ∈ grid, row.length = (grid.headD []).length

instance instRectDec (grid : List (List Char)) : Decidable (Rect grid) := by
  unfold Rect
  infer_instance

/-- p lies within the grid bounds used by get_neighbors:
0 ≤ row < len(grid) and 0 ≤ col < len(grid[0]). -/
def inBounds (grid : List (List Char)) (p : Int × Int) : Prop :=
  0 ≤ p.1 ∧ p.1 < (grid.length : Int) ∧ 0 ≤ p.2 ∧ p.2 < ((grid.headD []).length : Int)

instance instInBoundsDec (grid : List (List Char)) (p : Int × Int) :
    Decidable (inBounds grid p) := by
  unfold inBounds
  infer_instance

/-- A valid predecessor chain recorded in came_from: following it from
v for n steps reaches the start with a genuine action path of length n. -/
inductive VChain (grid : List (List Char)) (s0 : State)
    (cf : List (State × Option (Char × State))) : State → Nat → Prop where
  | zero : lookupA cf s0 = some none → VChain grid s0 cf s0 0
  | succ : ∀ {p n a v}, VChain grid s0 cf p n →
      lookupA cf v = some (some (a, p)) → applyA grid p a = some v →
      VChain grid s0 cf v (n + 1)

/-- All positions of the grid rectangle together with the start
position (the start may lie outside the grid; moves only ever enter
the rectangle). -/
def posSpace (grid : List (List Char)) (s0 : State) : Finset (Int × Int) :=
  insert s0.position
    ((Finset.range grid.length).image (fun r => (Int.ofNat r)) ×ˢ
      (Finset.range (grid.headD []).length).image (fun c => (Int.ofNat c)))

/-- A finite superset of every state either search can touch: positions
from posSpace, dirty sets shrinking from the initial one. -/
def stateSpace (grid : List (List Char)) (s0 : State) : Finset State :=
  (posSpace grid s0 ×ˢ s0.dirty.powerset).image (fun q => ⟨q.1, q.2⟩)

/-- Termination measure for the ucs loop: every iteration pops one
entry and each push also freshly extends cost_so_far. -/
def ucsMeasure (grid : List (List Char)) (s0 : State) (st : UcsState) : Nat :=
  6 * ((stateSpace grid s0).card - st.CM.length) + st.H.length

/-- Termination measure for the dfs loop: every iteration pops one
entry, and pushes happen only when the visited set freshly grows. -/
def dfsMeasure (grid : List (List Char)) (s0 : State)
    (stack : List (State × List Char)) (visited : Finset State) : Nat :=
  6 * ((stateSpace grid s0).card - visited.card) + stack.length

/-- Inductive invariant of the dfs loop: every stacked state and every
visited state lies in the finite state space. -/
def DfsInv (grid : List (List Char)) (s0 : State)
    (stack : List (State × List Char)) (visited : Finset State) : Prop :=
  (∀ p ∈ stack, p.1 ∈ stateSpace grid s0) ∧ visited ⊆ stateSpace grid s0

/-- Inductive invariant of the ucs loop, except for the closure of
expanded states under successor discovery (dsucc, kept separate so the
relaxation fold can re-establish it incrementally).  Done is the ghost
set of expanded (popped) states and L the cost of the last pop. -/
structure UcsInvA (grid : List (List Char)) (tb : Nat → Nat) (s0 : State)
    (st : UcsState) (Done : Finset State) (L : Nat) : Prop where
  hL : ∀ e ∈ st.H, L ≤ e.1
  hcm : ∀ e ∈ st.H, lookupA st.CM e.2.2 = some e.1
  hnd : ∀ e ∈ st.H, e.2.2 ∉ Done
  hnodup : (st.H.map (fun e => e.2.2)).Nodup
  cmb : ∀ v c, lookupA st.CM v = some c → c ≤ L + 1
  cmchain : ∀ v c, lookupA st.CM v = some c → VChain grid s0 st.CF v c
  cms0 : lookupA st.CM s0 = some 0
  cfs0 : lookupA st.CF s0 = some none
  dmin : ∀ u ∈ Done, ∃ d, lookupA st.CM u = some d ∧ ∀ m, Reach grid s0 u m → d ≤ m
  dgoal : ∀ u ∈ Done, u.dirty ≠ ∅
  cmloc : ∀ v c, lookupA st.CM v = some c → v ∈ Done ∨ ∃ k, (c, k, v) ∈ st.H
  dinit : Done = ∅ → st.H = [(0, tb 0, s0)]
  ds0 : Done = ∅ ∨ s0 ∈ Done
  cfdom : ∀ v, lookupA st.CM v = none → lookupA st.CF v = none
  cmspace : ∀ v c, lookupA st.CM v = some c → v ∈ stateSpace grid s0
  cmkeys : (st.CM.map (fun p => p.1)).Nodup

/-- Full inductive invariant of the ucs loop: UcsInvA together with the
fact that every successor of an expanded state has a recorded cost at
most one above its parent's. -/
def UcsInv (grid : List (List Char)) (tb : Nat → Nat) (s0 : State)
    (st : UcsState) (Done : Finset State) (L : Nat) : Prop :=
  UcsInvA grid tb s0 st Done L ∧
    ∀ u ∈ Done, ∀ x ∈ get_neighbors u grid, ∃ du cv,
      lookupA st.CM u = some du ∧ lookupA st.CM x.2 = some cv ∧ cv ≤ du + 1

/-- Relabel the identity key of a frontier entry whose key field holds
the push index. -/
def liftE (t : Nat → Nat) (e : HeapEntry) : HeapEntry := (e.1, t e.2.1, e.2.2)

/-- Relabel the identity keys of a whole ucs state whose heap holds
push indices in the key field. -/
def liftS (t : Nat → Nat) (st : UcsState) : UcsState :=
  ⟨st.H.map (liftE t), st.CM, st.CF, st.pc, st.gen⟩

/-- The last element of a list if any, else a default option (used to
describe which agent marker parse_world ends up keeping). -/
def lastOr {α : Type} (l : List α) (d : Option α) : Option α :=
  match l.getLast? with
  | some x => some x
  | none => d

/-- All agent-marker cells of the processed grid, in reading order
(rows in order, characters of each stripped row left to right). -/
def agentCells (lines : List (List Char)) (rows : Nat) : List (Int × Int) :=
  (List.range rows).flatMap (fun r =>
    (pyStrip (lines.getD (2 + r) [])).enum.filterMap
      (fun x => if x.2 = '@' then some (((r : Int)), ((x.1 : Int))) else none))

/-- The position of the last agent marker in reading order, if any. -/
def lastAgent (lines : List (List Char)) (rows : Nat) : Option (Int × Int) :=
  (agentCells lines rows).getLast?

/-- Decidable equality for Except results (used to state parse facts). -/
instance instExceptDecEq {ε α : Type} [DecidableEq ε] [DecidableEq α] :
    DecidableEq (Except ε α) := fun a b =>
  match a, b with
  | .error e, .error f =>
    if h : e = f then .isTrue (by rw [h]) else .isFalse (by simp [h])
  | .error _, .ok _ => .isFalse (by simp)
  | .ok _, .error _ => .isFalse (by simp)
  | .ok x, .ok y =>
    if h : x = y then .isTrue (by rw [h]) else .isFalse (by simp [h])

/- ------------------------------------------------------------------ -/
/- Lemmas: association lists and the frontier pop.                    -/
/- ------------------------------------------------------------------ -/

theorem lookupA_eq_none {α β : Type} [DecidableEq α] (l : List (α × β)) (q : α) :
    lookupA l q = none ↔ q ∉ l.map Prod.fst := by
  induction l with
  | nil => simp [lookupA]
  | cons p l ih =>
    obtain ⟨k, v⟩ := p
    by_cases h : q = k
    · subst h
      simp [lookupA]
    · simp [lookupA, h, ih]

theorem lookupA_persist {α β : Type} [DecidableEq α] {l : List (α × β)} {q w : α}
    {c : β} (x : β) (h : lookupA l q = some c) (hw : lookupA l w = none) :
    lookupA ((w, x) :: l) q = some c := by
  have hqw : q ≠ w := by
    rintro rfl
    rw [h] at hw
    cases hw
  simp [lookupA, hqw, h]

theorem entryLE_total (e f : HeapEntry) : entryLE e f ∨ entryLE f e := by
  unfold entryLE
  omega

theorem entryLE_cost {e f : HeapEntry} (h : entryLE e f) : e.1 ≤ f.1 := by
  unfold entryLE at h
  omega

theorem popMin_cons_isSome (e : HeapEntry) (es : List HeapEntry) :
    (popMin (e :: es)).isSome := by
  simp only [popMin]
  cases popMin es with
  | none => rfl
  | some mr =>
    obtain ⟨m, rest⟩ := mr
    dsimp only
    split <;> rfl

theorem popMin_none {H : List HeapEntry} (h : popMin H = none) : H = [] := by
  cases H with
  | nil => rfl
  | cons e es =>
    have hs := popMin_cons_isSome e es
    rw [h] at hs
    cases hs

theorem popMin_perm {H : List HeapEntry} {e : HeapEntry} {rest : List HeapEntry}
    (h : popMin H = some (e, rest)) : H.Perm (e :: rest) := by
  induction H generalizing e rest with
  | nil => cases h
  | cons f es ih =>
    simp only [popMin] at h
    cases h2 : popMin es with
    | none =>
      have hes : es = [] := popMin_none h2
      subst hes
      rw [h2] at h
      simp only [Option.some.injEq, Prod.mk.injEq] at h
      obtain ⟨rfl, rfl⟩ := h
      exact List.Perm.refl _
    | some mr =>
      obtain ⟨m, r2⟩ := mr
      rw [h2] at h
      dsimp only at h
      by_cases hle : entryLE f m
      · rw [if_pos hle] at h
        simp only [Option.some.injEq, Prod.mk.injEq] at h
        obtain ⟨rfl, rfl⟩ := h
        exact List.Perm.refl _
      · rw [if_neg hle] at h
        simp only [Option.some.injEq, Prod.mk.injEq] at h
        obtain ⟨rfl, rfl⟩ := h
        exact ((ih h2).cons f).trans (List.Perm.swap m f r2)

theorem popMin_mem {H : List HeapEntry} {e : HeapEntry} {rest : List HeapEntry}
    (h : popMin H = some (e, rest)) : e ∈ H :=
  (popMin_perm h).mem_iff.mpr (List.mem_cons_self e rest)

theorem popMin_min {H : List HeapEntry} {e : HeapEntry} {rest : List HeapEntry}
    (h : popMin H = some (e, rest)) : ∀ f ∈ H, e.1 ≤ f.1 := by
  induction H generalizing e rest with
  | nil => cases h
  | cons g es ih =>
    simp only [popMin] at h
    cases h2 : popMin es with
    | none =>
      have hes : es = [] := popMin_none h2
      subst hes
      rw [h2] at h
      simp only [Option.some.injEq, Prod.mk.injEq] at h
      obtain ⟨rfl, rfl⟩ := h
      intro f hf
      rcases List.mem_cons.mp hf with rfl | hf2
      · exact le_refl _
      · cases hf2
    | some mr =>
      obtain ⟨m, r2⟩ := mr
      rw [h2] at h
      dsimp only at h
      by_cases hle : entryLE g m
      · rw [if_pos hle] at h
        simp only [Option.some.injEq, Prod.mk.injEq] at h
        obtain ⟨rfl, rfl⟩ := h
        intro f hf
        rcases List.mem_cons.mp hf with rfl | hf2
        · exact le_refl _
        · exact le_trans (entryLE_cost hle) (ih h2 f hf2)
      · rw [if_neg hle] at h
        simp only [Option.some.injEq, Prod.mk.injEq] at h
        obtain ⟨rfl, rfl⟩ := h
        have hm : entryLE m g := (entryLE_total g m).resolve_left hle
        intro f hf
        rcases List.mem_cons.mp hf with rfl | hf2
        · exact entryLE_cost hm
        · exact ih h2 f hf2

theorem lastOr_cons {α : Type} (x : α) (l : List α) (d : Option α) :
    lastOr (x :: l) d = lastOr l (some x) := by
  cases l with
  | nil => simp [lastOr]
  | cons b l2 =>
    unfold lastOr
    rw [List.getLast?_cons_cons]
    cases h : (b :: l2).getLast? with
    | none =>
      exfalso
      rw [List.getLast?_eq_none_iff] at h
      cases h
    | some y => rfl

theorem lastOr_append {α : Type} (l1 l2 : List α) (d : Option α) :
    lastOr (l1 ++ l2) d = lastOr l2 (lastOr l1 d) := by
  induction l1 generalizing d with
  | nil => simp [lastOr]
  | cons x l1 ih =>
    rw [List.cons_append, lastOr_cons, ih, lastOr_cons]

/- ------------------------------------------------------------------ -/
/- Lemmas: the successor generator.                                   -/
/- ------------------------------------------------------------------ -/

theorem moveStep_eq (grid : List (List Char)) (s : State) (acc : List (Char × State))
    (m : Char × (Int × Int)) :
    moveStep grid s acc m = acc ++ moveOpt grid s m.1 m.2.1 m.2.2 := by
  simp only [moveStep, moveOpt]
  split_ifs <;> simp

/-- Normal form of get_neighbors: the four directional candidates in
the order N, S, E, W, then the Vacuum candidate. -/
theorem get_neighbors_eq (s : State) (grid : List (List Char)) :
    get_neighbors s grid =
      moveOpt grid s 'N' (-1) 0 ++ moveOpt grid s 'S' 1 0 ++ moveOpt grid s 'E' 0 1 ++
        moveOpt grid s 'W' 0 (-1) ++ vacOpt s := by
  unfold get_neighbors vacOpt
  simp only [MOVES, List.foldl_cons, List.foldl_nil, moveStep_eq]
  split_ifs with h <;> simp [List.append_assoc]

theorem mem_moveOpt {grid : List (List Char)} {s : State} {a : Char} {dr dc : Int}
    {x : Char × State} (h : x ∈ moveOpt grid s a dr dc) :
    x.1 = a ∧ x.2.dirty = s.dirty ∧
      x.2.position = (s.position.1 + dr, s.position.2 + dc) ∧
      inBounds grid x.2.position ∧
      (grid.getD x.2.position.1.toNat []).getD x.2.position.2.toNat '#' ≠ '#' := by
  simp only [moveOpt] at h
  split_ifs at h with h1 h2
  · simp only [List.mem_singleton] at h
    subst h
    exact ⟨rfl, rfl, rfl, h1, h2⟩
  · cases h
  · cases h

theorem mem_vacOpt {s : State} {x : Char × State} (h : x ∈ vacOpt s) :
    x.1 = 'V' ∧ s.position ∈ s.dirty ∧
      x.2 = ⟨s.position, s.dirty.erase s.position⟩ := by
  simp only [vacOpt] at h
  split_ifs at h with h1
  · simp only [List.mem_singleton] at h
    subst h
    exact ⟨rfl, h1, rfl⟩
  · cases h

/-- Case analysis on a generated successor: either a legal in-bounds
move keeping the dirty set, or the Vacuum successor. -/
theorem mem_get_neighbors {s : State} {grid : List (List Char)} {x : Char × State}
    (h : x ∈ get_neighbors s grid) :
    (x.2.dirty = s.dirty ∧ inBounds grid x.2.position ∧
      (grid.getD x.2.position.1.toNat []).getD x.2.position.2.toNat '#' ≠ '#' ∧
      (x.1 = 'N' ∨ x.1 = 'S' ∨ x.1 = 'E' ∨ x.1 = 'W')) ∨
    (x.1 = 'V' ∧ s.position ∈ s.dirty ∧
      x.2 = ⟨s.position, s.dirty.erase s.position⟩) := by
  rw [get_neighbors_eq] at h
  simp only [List.mem_append] at h
  rcases h with ((((h | h) | h) | h) | h)
  · obtain ⟨ha, hd, _, hb, hc⟩ := mem_moveOpt h
    exact Or.inl ⟨hd, hb, hc, Or.inl ha⟩
  · obtain ⟨ha, hd, _, hb, hc⟩ := mem_moveOpt h
    exact Or.inl ⟨hd, hb, hc, Or.inr (Or.inl ha)⟩
  · obtain ⟨ha, hd, _, hb, hc⟩ := mem_moveOpt h
    exact Or.inl ⟨hd, hb, hc, Or.inr (Or.inr (Or.inl ha))⟩
  · obtain ⟨ha, hd, _, hb, hc⟩ := mem_moveOpt h
    exact Or.inl ⟨hd, hb, hc, Or.inr (Or.inr (Or.inr ha))⟩
  · exact Or.inr (mem_vacOpt h)

theorem get_neighbors_keys_sublist (s : State) (grid : List (List Char)) :
    List.Sublist ((get_neighbors s grid).map Prod.fst) ['N', 'S', 'E', 'W', 'V'] := by
  rw [get_neighbors_eq]
  simp only [List.map_append]
  have hone : ∀ (a : Char) (dr dc : Int),
      List.Sublist ((moveOpt grid s a dr dc).map Prod.fst) [a] := by
    intro a dr dc
    simp only [moveOpt]
    split_ifs <;> simp
  have hvac : List.Sublist ((vacOpt s).map Prod.fst) ['V'] := by
    simp only [vacOpt]
    split_ifs <;> simp
  exact ((((hone 'N' (-1) 0).append (hone 'S' 1 0)).append (hone 'E' 0 1)).append
    (hone 'W' 0 (-1))).append hvac

theorem get_neighbors_keys_nodup (s : State) (grid : List (List Char)) :
    ((get_neighbors s grid).map Prod.fst).Nodup :=
  (get_neighbors_keys_sublist s grid).nodup (by decide)

theorem get_neighbors_length_le (s : State) (grid : List (List Char)) :
    (get_neighbors s grid).length ≤ 5 := by
  have h := (get_neighbors_keys_sublist s grid).length_le
  simpa using h

theorem eq_of_keys_nodup {l : List (Char × State)}
    (hn : (l.map Prod.fst).Nodup) {x y : Char × State}
    (hx : x ∈ l) (hy : y ∈ l) (h1 : x.1 = y.1) : x = y := by
  induction l with
  | nil => cases hx
  | cons z l ih =>
    simp only [List.map_cons, List.nodup_cons] at hn
    rcases List.mem_cons.mp hx with rfl | hx2
    · rcases List.mem_cons.mp hy with rfl | hy2
      · rfl
      · exfalso
        apply hn.1
        rw [h1]
        exact List.mem_map_of_mem Prod.fst hy2
    · rcases List.mem_cons.mp hy with rfl | hy2
      · exfalso
        apply hn.1
        rw [← h1]
        exact List.mem_map_of_mem Prod.fst hx2
      · exact ih hn.2 hx2 hy2

/-- Membership in get_neighbors determines the action semantics. -/
theorem applyA_of_mem {grid : List (List Char)} {s : State} {x : Char × State}
    (h : x ∈ get_neighbors s grid) : applyA grid s x.1 = some x.2 := by
  unfold applyA
  cases hf : (get_neighbors s grid).find? (fun y => y.1 == x.1) with
  | none =>
    exfalso
    have := List.find?_eq_none.mp hf x h
    simp at this
  | some z =>
    have hz := List.find?_some hf
    have hzm := List.mem_of_find?_eq_some hf
    have hzx : z = x :=
      eq_of_keys_nodup (get_neighbors_keys_nodup s grid) hzm h (by simpa using hz)
    simp [hzx]

/-- The action semantics comes from a generated successor. -/
theorem mem_of_applyA {grid : List (List Char)} {s : State} {a : Char} {v : State}
    (h : applyA grid s a = some v) : (a, v) ∈ get_neighbors s grid := by
  unfold applyA at h
  cases hf : (get_neighbors s grid).find? (fun y => y.1 == a) with
  | none =>
    rw [hf] at h
    cases h
  | some z =>
    rw [hf] at h
    simp only [Option.map_some', Option.some.injEq] at h
    have hz := List.find?_some hf
    have hzm := List.mem_of_find?_eq_some hf
    have h1 : z.1 = a := by simpa using hz
    have : (a, v) = z := by
      rw [← h1, ← h]
    rw [this]
    exact hzm

theorem execList_append (grid : List (List Char)) (l1 l2 : List Char) (s : State) :
    execList grid s (l1 ++ l2) =
      (execList grid s l1).bind (fun t => execList grid t l2) := by
  induction l1 generalizing s with
  | nil => simp [execList]
  | cons a l ih =>
    simp only [List.cons_append, execList]
    cases applyA grid s a with
    | none => simp
    | some t => simp [ih]

theorem exec_reach {grid : List (List Char)} {s0 : State} :
    ∀ {acts : List Char} {v : State}, execList grid s0 acts = some v →
      Reach grid s0 v acts.length := by
  intro acts
  induction acts using List.reverseRecOn with
  | nil =>
    intro v h
    simp only [execList, Option.some.injEq] at h
    subst h
    exact Reach.refl
  | append_singleton l a ih =>
    intro v h
    rw [execList_append] at h
    cases hu : execList grid s0 l with
    | none =>
      rw [hu] at h
      cases h
    | some u =>
      rw [hu] at h
      simp only [Option.some_bind] at h
      have ha : applyA grid u a = some v := by
        simp only [execList] at h
        cases happ : applyA grid u a with
        | none => rw [happ] at h; cases h
        | some t =>
          rw [happ] at h
          simp only [execList] at h
          exact h
      have hr := ih hu
      simpa using Reach.tail hr ha

/- ------------------------------------------------------------------ -/
/- Lemmas: predecessor chains.                                        -/
/- ------------------------------------------------------------------ -/

theorem reconstruct_path_succ (cf : List (State × Option (Char × State)))
    (s : State) (fuel : Nat) :
    reconstruct_path cf s (fuel + 1) =
      match lookupA cf s with
      | none => none
      | some none => some []
      | some (some (a, p)) => (reconstruct_path cf p fuel).map (fun l => l ++ [a]) := rfl

theorem vchain_mono {grid : List (List Char)} {s0 : State}
    {cf : List (State × Option (Char × State))} {v : State} {n : Nat} {w : State}
    (x : Option (Char × State)) (hw : lookupA cf w = none)
    (h : VChain grid s0 cf v n) : VChain grid s0 ((w, x) :: cf) v n := by
  induction h with
  | zero h0 => exact .zero (lookupA_persist x h0 hw)
  | succ hc hl ha ih => exact .succ ih (lookupA_persist x hl hw) ha

theorem vchain_recon {grid : List (List Char)} {s0 : State}
    {cf : List (State × Option (Char × State))} {v : State} {n : Nat}
    (h : VChain grid s0 cf v n) :
    ∃ pp, reconstruct_path cf v (n + 1) = some pp ∧ pp.length = n ∧
      execList grid s0 pp = some v := by
  induction h with
  | zero h0 => exact ⟨[], by rw [reconstruct_path_succ, h0], rfl, rfl⟩
  | @succ p n a v hc hl ha ih =>
    obtain ⟨pp, hr, hlen, hex⟩ := ih
    refine ⟨pp ++ [a], ?_, by simp [hlen], ?_⟩
    · rw [reconstruct_path_succ, hl]
      dsimp only
      rw [hr]
      rfl
    · rw [execList_append, hex]
      simp [execList, ha]

theorem vchain_reach {grid : List (List Char)} {s0 : State}
    {cf : List (State × Option (Char × State))} {v : State} {n : Nat}
    (h : VChain grid s0 cf v n) : Reach grid s0 v n := by
  obtain ⟨pp, _, hlen, hex⟩ := vchain_recon h
  have hr := exec_reach hex
  rwa [hlen] at hr

/- ------------------------------------------------------------------ -/
/- Lemmas: the finite state space.                                    -/
/- ------------------------------------------------------------------ -/

theorem mem_stateSpace {grid : List (List Char)} {s0 t : State} :
    t ∈ stateSpace grid s0 ↔ t.position ∈ posSpace grid s0 ∧ t.dirty ⊆ s0.dirty := by
  unfold stateSpace
  rw [Finset.mem_image]
  constructor
  · rintro ⟨q, hq, rfl⟩
    rw [Finset.mem_product] at hq
    exact ⟨hq.1, Finset.mem_powerset.mp hq.2⟩
  · rintro ⟨hp, hd⟩
    exact ⟨(t.position, t.dirty),
      Finset.mem_product.mpr ⟨hp, Finset.mem_powerset.mpr hd⟩, rfl⟩

theorem s0_mem_stateSpace (grid : List (List Char)) (s0 : State) :
    s0 ∈ stateSpace grid s0 :=
  mem_stateSpace.mpr ⟨Finset.mem_insert_self _ _, subset_rfl⟩

theorem neighbors_space {grid : List (List Char)} {s0 u : State} {x : Char × State}
    (hu : u ∈ stateSpace grid s0) (hx : x ∈ get_neighbors u grid) :
    x.2 ∈ stateSpace grid s0 := by
  rw [mem_stateSpace] at hu ⊢
  rcases mem_get_neighbors hx with ⟨hd, hb, _, _⟩ | ⟨_, _, hxe⟩
  · constructor
    · obtain ⟨hb1, hb2, hb3, hb4⟩ := hb
      refine Finset.mem_insert.mpr (Or.inr ?_)
      rw [Finset.mem_product]
      constructor
      · rw [Finset.mem_image]
        refine ⟨x.2.position.1.toNat, ?_, ?_⟩
        · rw [Finset.mem_range]
          omega
        · exact Int.toNat_of_nonneg hb1
      · rw [Finset.mem_image]
        refine ⟨x.2.position.2.toNat, ?_, ?_⟩
        · rw [Finset.mem_range]
          omega
        · exact Int.toNat_of_nonneg hb3
    · rw [hd]
      exact hu.2
  · rw [hxe]
    exact ⟨hu.1, subset_trans (Finset.erase_subset _ _) hu.2⟩

/- ------------------------------------------------------------------ -/
/- Lemmas: the ucs invariant.                                         -/
/- ------------------------------------------------------------------ -/

theorem lookupA_cons_eq {α β : Type} [DecidableEq α] (k : α) (v : β)
    (l : List (α × β)) (q : α) :
    lookupA ((k, v) :: l) q = if q = k then some v else lookupA l q := rfl

theorem ucsLoop_succ (grid : List (List Char)) (tb : Nat → Nat) (f : Nat)
    (st : UcsState) (exp : Nat) :
    ucsLoop grid tb (f + 1) st exp =
      match popMin st.H with
      | none => .noSolution
      | some ((c, _, s), hRest) =>
        if s.dirty = ∅ then
          match reconstruct_path st.CF s (c + 1) with
          | some p => .found ⟨p, st.gen, exp + 1⟩
          | none => .fuelOut
        else
          ucsLoop grid tb f (relaxAll grid tb c s ⟨hRest, st.CM, st.CF, st.pc, st.gen⟩)
            (exp + 1) := rfl

/-- The initial ucs configuration satisfies the invariant. -/
theorem ucs_init (grid : List (List Char)) (tb : Nat → Nat) (s0 : State) :
    UcsInv grid tb s0 ⟨[(0, tb 0, s0)], [(s0, 0)], [(s0, none)], 1, 0⟩ ∅ 0 := by
  have hcm0 : ∀ v c, lookupA [(s0, (0 : Nat))] v = some c → v = s0 ∧ c = 0 := by
    intro v c h
    rw [lookupA_cons_eq] at h
    by_cases hv : v = s0
    · rw [if_pos hv] at h
      injection h with h
      exact ⟨hv, h.symm⟩
    · rw [if_neg hv] at h
      cases h
  constructor
  · constructor
    · intro e he
      exact Nat.zero_le _
    · intro e he
      simp only [List.mem_singleton] at he
      subst he
      simp [lookupA]
    · intro e he
      exact Finset.not_mem_empty _
    · simp
    · intro v c h
      obtain ⟨rfl, rfl⟩ := hcm0 v c h
      omega
    · intro v c h
      obtain ⟨rfl, rfl⟩ := hcm0 v c h
      exact .zero (by simp [lookupA])
    · simp [lookupA]
    · simp [lookupA]
    · intro u hu
      exact absurd hu (Finset.not_mem_empty _)
    · intro u hu
      exact absurd hu (Finset.not_mem_empty _)
    · intro v c h
      obtain ⟨rfl, rfl⟩ := hcm0 v c h
      exact Or.inr ⟨tb 0, by simp⟩
    · intro _
      rfl
    · exact Or.inl rfl
    · intro v hv
      rw [lookupA_cons_eq] at hv ⊢
      by_cases h : v = s0
      · rw [if_pos h] at hv
        cases hv
      · rw [if_neg h]
        rfl
    · intro v c h
      obtain ⟨rfl, rfl⟩ := hcm0 v c h
      exact s0_mem_stateSpace _ _
    · simp
  · intro u hu
    exact absurd hu (Finset.not_mem_empty _)

/-- Frontier-cut optimality: whatever entry ucs pops next costs no more
than any path from the start to any not-yet-expanded state. -/
theorem pop_le_reach {grid : List (List Char)} {tb : Nat → Nat} {s0 : State}
    {st : UcsState} {Done : Finset State} {L : Nat}
    (hInv : UcsInv grid tb s0 st Done L)
    {c k : Nat} {s : State} {rest : List HeapEntry}
    (hpop : popMin st.H = some ((c, k, s), rest)) :
    ∀ v, v ∉ Done → ∀ m, Reach grid s0 v m → c ≤ m := by
  obtain ⟨hA, hsucc⟩ := hInv
  have aux : ∀ v m, Reach grid s0 v m → v ∉ Done → c ≤ m := by
    intro v m hr
    induction hr with
    | refl =>
      intro hv
      rcases hA.ds0 with hD | hs0
      · have hH := hA.dinit hD
        rw [hH] at hpop
        have hone : popMin [((0 : Nat), tb 0, s0)] = some ((0, tb 0, s0), []) := rfl
        rw [hone] at hpop
        simp only [Option.some.injEq, Prod.mk.injEq] at hpop
        obtain ⟨⟨hc, _, _⟩, _⟩ := hpop
        omega
      · exact absurd hs0 hv
    | @tail u n a v2 hru happ ihu =>
      intro hv
      by_cases hu : u ∈ Done
      · obtain ⟨du, cv, hlu, hlv, hle⟩ := hsucc u hu (a, v2) (mem_of_applyA happ)
        obtain ⟨d, hd, hmind⟩ := hA.dmin u hu
        rw [hlu] at hd
        injection hd with hd
        subst hd
        have hdu : du ≤ n := hmind n hru
        rcases hA.cmloc v2 cv hlv with hvD | ⟨k2, hk2⟩
        · exact absurd hvD hv
        · have hcle : c ≤ cv := popMin_min hpop (cv, k2, v2) hk2
          omega
      · have := ihu hu
        omega
  exact fun v hv m hr => aux v m hr hv

/-- The three possible effects of one relaxation step. -/
theorem relaxOne_cases (tb : Nat → Nat) (c : Nat) (s : State) (st : UcsState)
    (x : Char × State) :
    (lookupA st.CM x.2 = none ∧
      relaxOne tb c s st x = ⟨(c + 1, tb st.pc, x.2) :: st.H, (x.2, c + 1) :: st.CM,
        (x.2, some (x.1, s)) :: st.CF, st.pc + 1, st.gen + 1⟩) ∨
    (∃ cv, lookupA st.CM x.2 = some cv ∧ c + 1 < cv ∧
      relaxOne tb c s st x = ⟨(c + 1, tb st.pc, x.2) :: st.H, (x.2, c + 1) :: st.CM,
        (x.2, some (x.1, s)) :: st.CF, st.pc + 1, st.gen + 1⟩) ∨
    (∃ cv, lookupA st.CM x.2 = some cv ∧ ¬ c + 1 < cv ∧
      relaxOne tb c s st x = st) := by
  cases h : lookupA st.CM x.2 with
  | none =>
    left
    refine ⟨rfl, ?_⟩
    unfold relaxOne
    rw [h]
  | some cv =>
    by_cases hlt : c + 1 < cv
    · right
      left
      refine ⟨cv, rfl, hlt, ?_⟩
      unfold relaxOne
      rw [h]
      dsimp only
      rw [if_pos hlt]
    · right
      right
      refine ⟨cv, rfl, hlt, ?_⟩
      unfold relaxOne
      rw [h]
      dsimp only
      rw [if_neg hlt]

/-- One relaxation step preserves the invariant and records the
successor at cost at most c + 1. -/
theorem relaxOne_preserve {grid : List (List Char)} {tb : Nat → Nat} {s0 : State}
    {c : Nat} {s : State} {Done : Finset State} {st1 : UcsState} {x : Char × State}
    (hx : x ∈ get_neighbors s grid)
    (hA : UcsInvA grid tb s0 st1 (insert s Done) c)
    (hs_cm : lookupA st1.CM s = some c) :
    UcsInvA grid tb s0 (relaxOne tb c s st1 x) (insert s Done) c ∧
    lookupA (relaxOne tb c s st1 x).CM s = some c ∧
    (∀ w cw, lookupA st1.CM w = some cw →
      lookupA (relaxOne tb c s st1 x).CM w = some cw) ∧
    (∃ cv, lookupA (relaxOne tb c s st1 x).CM x.2 = some cv ∧ cv ≤ c + 1) ∧
    (∃ kp, kp ≤ 1 ∧ (relaxOne tb c s st1 x).CM.length = st1.CM.length + kp ∧
      (relaxOne tb c s st1 x).H.length = st1.H.length + kp) := by
  rcases relaxOne_cases tb c s st1 x with ⟨hnone, heq⟩ | ⟨cv, hsome, hlt, _⟩ |
    ⟨cv, hsome, _, heq⟩
  · -- fresh push
    have hcf_none : lookupA st1.CF x.2 = none := hA.cfdom _ hnone
    have hne_s : x.2 ≠ s := by
      intro h
      rw [h, hs_cm] at hnone
      cases hnone
    have hnotdone : x.2 ∉ insert s Done := by
      intro hD
      obtain ⟨d, hd, _⟩ := hA.dmin _ hD
      rw [hnone] at hd
      cases hd
    have hnotheap : ∀ e ∈ st1.H, e.2.2 ≠ x.2 := by
      intro e he h2
      have hcme := hA.hcm e he
      rw [h2, hnone] at hcme
      cases hcme
    have hinv : ∀ w cw, lookupA ((x.2, c + 1) :: st1.CM) w = some cw →
        (w = x.2 ∧ cw = c + 1) ∨ (w ≠ x.2 ∧ lookupA st1.CM w = some cw) := by
      intro w cw h
      rw [lookupA_cons_eq] at h
      by_cases hw : w = x.2
      · rw [if_pos hw] at h
        injection h with h
        exact Or.inl ⟨hw, h.symm⟩
      · rw [if_neg hw] at h
        exact Or.inr ⟨hw, h⟩
    have hper : ∀ w cw, lookupA st1.CM w = some cw →
        lookupA ((x.2, c + 1) :: st1.CM) w = some cw :=
      fun w cw h => lookupA_persist _ h hnone
    have hperf : ∀ w ow, lookupA st1.CF w = some ow →
        lookupA ((x.2, some (x.1, s)) :: st1.CF) w = some ow :=
      fun w ow h => lookupA_persist _ h hcf_none
    have hnew_cm : lookupA ((x.2, c + 1) :: st1.CM) x.2 = some (c + 1) := by
      rw [lookupA_cons_eq, if_pos rfl]
    have hnew_cf : lookupA ((x.2, some (x.1, s)) :: st1.CF) x.2 =
        some (some (x.1, s)) := by
      rw [lookupA_cons_eq, if_pos rfl]
    rw [heq]
    refine ⟨⟨?_, ?_, ?_, ?_, ?_, ?_, ?_, ?_, ?_, ?_, ?_, ?_, ?_, ?_, ?_, ?_⟩,
      hper _ _ hs_cm, hper, ⟨c + 1, hnew_cm, le_refl _⟩,
      ⟨1, le_refl _, by simp, by simp⟩⟩
    · intro e he
      rcases List.mem_cons.mp he with rfl | he2
      · omega
      · exact hA.hL e he2
    · intro e he
      rcases List.mem_cons.mp he with rfl | he2
      · exact hnew_cm
      · exact hper _ _ (hA.hcm e he2)
    · intro e he
      rcases List.mem_cons.mp he with rfl | he2
      · exact hnotdone
      · exact hA.hnd e he2
    · simp only [List.map_cons, List.nodup_cons]
      constructor
      · intro hmem
        rw [List.mem_map] at hmem
        obtain ⟨e, he, h2⟩ := hmem
        exact hnotheap e he h2
      · exact hA.hnodup
    · intro v cw h
      rcases hinv v cw h with ⟨_, rfl⟩ | ⟨_, h2⟩
      · omega
      · exact hA.cmb v cw h2
    · intro v cw h
      rcases hinv v cw h with ⟨rfl, rfl⟩ | ⟨_, h2⟩
      · exact .succ (vchain_mono _ hcf_none (hA.cmchain s c hs_cm)) hnew_cf
          (applyA_of_mem hx)
      · exact vchain_mono _ hcf_none (hA.cmchain v cw h2)
    · exact hper _ _ hA.cms0
    · exact hperf _ _ hA.cfs0
    · intro u hu
      obtain ⟨d, hd, hm⟩ := hA.dmin u hu
      exact ⟨d, hper _ _ hd, hm⟩
    · exact hA.dgoal
    · intro v cw h
      rcases hinv v cw h with ⟨rfl, rfl⟩ | ⟨_, h2⟩
      · exact Or.inr ⟨tb st1.pc, List.mem_cons_self _ _⟩
      · rcases hA.cmloc v cw h2 with hD | ⟨k2, hk2⟩
        · exact Or.inl hD
        · exact Or.inr ⟨k2, List.mem_cons_of_mem _ hk2⟩
    · intro h
      exact absurd h (Finset.insert_ne_empty _ _)
    · exact hA.ds0
    · intro v hv
      rw [lookupA_cons_eq] at hv
      by_cases hw : v = x.2
      · rw [if_pos hw] at hv
        cases hv
      · rw [if_neg hw] at hv
        rw [lookupA_cons_eq, if_neg hw]
        exact hA.cfdom v hv
    · intro v cw h
      rcases hinv v cw h with ⟨rfl, rfl⟩ | ⟨_, h2⟩
      · exact neighbors_space (hA.cmspace s c hs_cm) hx
      · exact hA.cmspace v cw h2
    · simp only [List.map_cons, List.nodup_cons]
      exact ⟨(lookupA_eq_none _ _).mp hnone, hA.cmkeys⟩
  · -- a strictly cheaper path to a recorded state is impossible
    exfalso
    have := hA.cmb _ _ hsome
    omega
  · -- no relaxation
    rw [heq]
    exact ⟨hA, hs_cm, fun w cw h => h,
      ⟨cv, hsome, hA.cmb _ _ hsome⟩, ⟨0, by omega, by simp, by simp⟩⟩

/-- Folding relaxation over any sublist of the successors of s
preserves the invariant, keeps recorded costs, and records every
processed successor at cost at most c + 1. -/
theorem relax_fold {grid : List (List Char)} {tb : Nat → Nat} {s0 : State}
    {c : Nat} {s : State} {Done : Finset State} :
    ∀ (xs : List (Char × State)) (st1 : UcsState),
    (∀ x ∈ xs, x ∈ get_neighbors s grid) →
    UcsInvA grid tb s0 st1 (insert s Done) c →
    lookupA st1.CM s = some c →
    UcsInvA grid tb s0 (xs.foldl (relaxOne tb c s) st1) (insert s Done) c ∧
    lookupA (xs.foldl (relaxOne tb c s) st1).CM s = some c ∧
    (∀ w cw, lookupA st1.CM w = some cw →
      lookupA (xs.foldl (relaxOne tb c s) st1).CM w = some cw) ∧
    (∀ x ∈ xs, ∃ cv, lookupA (xs.foldl (relaxOne tb c s) st1).CM x.2 = some cv ∧
      cv ≤ c + 1) ∧
    (∃ kp, kp ≤ xs.length ∧
      (xs.foldl (relaxOne tb c s) st1).CM.length = st1.CM.length + kp ∧
      (xs.foldl (relaxOne tb c s) st1).H.length = st1.H.length + kp) := by
  intro xs
  induction xs with
  | nil =>
    intro st1 _ hA hs
    exact ⟨hA, hs, fun w cw h => h, by simp, ⟨0, by simp, by simp, by simp⟩⟩
  | cons x xs ih =>
    intro st1 hsub hA hs
    have hx : x ∈ get_neighbors s grid := hsub x (List.mem_cons_self _ _)
    obtain ⟨hA1, hs1, hper1, ⟨cvx, hcvx, hcvxle⟩, ⟨k1, hk1, hcm1, hh1⟩⟩ :=
      relaxOne_preserve hx hA hs
    obtain ⟨hA2, hs2, hper2, hproc2, ⟨k2, hk2, hcm2, hh2⟩⟩ :=
      ih (relaxOne tb c s st1 x) (fun y hy => hsub y (List.mem_cons_of_mem _ hy))
        hA1 hs1
    rw [List.foldl_cons]
    refine ⟨hA2, hs2, fun w cw h => hper2 w cw (hper1 w cw h), ?_, ?_⟩
    · intro y hy
      rcases List.mem_cons.mp hy with rfl | hy2
      · exact ⟨cvx, hper2 _ _ hcvx, hcvxle⟩
      · exact hproc2 y hy2
    · exact ⟨k1 + k2, by simp; omega, by omega, by omega⟩

/-- One full non-goal iteration of the ucs loop preserves the invariant
(with the popped state added to Done and the pop cost as the new floor)
and grows the configuration in a controlled way. -/
theorem ucs_iter_preserve {grid : List (List Char)} {tb : Nat → Nat} {s0 : State}
    {st : UcsState} {Done : Finset State} {L : Nat}
    (hInv : UcsInv grid tb s0 st Done L)
    {c k : Nat} {s : State} {rest : List HeapEntry}
    (hpop : popMin st.H = some ((c, k, s), rest))
    (hgoal : s.dirty ≠ ∅) :
    UcsInv grid tb s0 (relaxAll grid tb c s ⟨rest, st.CM, st.CF, st.pc, st.gen⟩)
      (insert s Done) c ∧
    (∃ kp, kp ≤ 5 ∧
      (relaxAll grid tb c s ⟨rest, st.CM, st.CF, st.pc, st.gen⟩).CM.length =
        st.CM.length + kp ∧
      (relaxAll grid tb c s ⟨rest, st.CM, st.CF, st.pc, st.gen⟩).H.length =
        rest.length + kp ∧
      st.H.length = rest.length + 1) := by
  obtain ⟨hA, hsucc⟩ := hInv
  have hmem : (c, k, s) ∈ st.H := popMin_mem hpop
  have hperm : st.H.Perm ((c, k, s) :: rest) := popMin_perm hpop
  have hs_cm : lookupA st.CM s = some c := hA.hcm _ hmem
  have hs_nd : s ∉ Done := hA.hnd _ hmem
  have hLc : L ≤ c := hA.hL _ hmem
  have hrest_sub : ∀ e ∈ rest, e ∈ st.H :=
    fun e he => hperm.mem_iff.mpr (List.mem_cons_of_mem _ he)
  have hmin := popMin_min hpop
  have hs_minimal : ∀ m, Reach grid s0 s m → c ≤ m :=
    pop_le_reach ⟨hA, hsucc⟩ hpop s hs_nd
  have hnd2 : (((c, k, s) :: rest).map (fun e => e.2.2)).Nodup :=
    (hperm.map (fun e => e.2.2)).nodup hA.hnodup
  simp only [List.map_cons, List.nodup_cons] at hnd2
  have hA1 : UcsInvA grid tb s0 ⟨rest, st.CM, st.CF, st.pc, st.gen⟩
      (insert s Done) c := by
    constructor
    · intro e he
      exact hmin e (hrest_sub e he)
    · intro e he
      exact hA.hcm e (hrest_sub e he)
    · intro e he
      rw [Finset.mem_insert]
      rintro (h2 | h2)
      · exact hnd2.1 (h2 ▸ List.mem_map_of_mem (fun e => e.2.2) he)
      · exact hA.hnd e (hrest_sub e he) h2
    · exact hnd2.2
    · intro v cv h
      have := hA.cmb v cv h
      omega
    · exact hA.cmchain
    · exact hA.cms0
    · exact hA.cfs0
    · intro u hu
      rcases Finset.mem_insert.mp hu with rfl | hu2
      · exact ⟨c, hs_cm, hs_minimal⟩
      · exact hA.dmin u hu2
    · intro u hu
      rcases Finset.mem_insert.mp hu with rfl | hu2
      · exact hgoal
      · exact hA.dgoal u hu2
    · intro v cv h
      rcases hA.cmloc v cv h with hD | ⟨k2, hk2⟩
      · exact Or.inl (Finset.mem_insert_of_mem hD)
      · rcases List.mem_cons.mp (hperm.mem_iff.mp hk2) with heq | hmem2
        · simp only [Prod.mk.injEq] at heq
          obtain ⟨_, _, rfl⟩ := heq
          exact Or.inl (Finset.mem_insert_self _ _)
        · exact Or.inr ⟨k2, hmem2⟩
    · intro h
      exact absurd h (Finset.insert_ne_empty _ _)
    · refine Or.inr ?_
      rcases hA.ds0 with hD | hs0
      · have hH := hA.dinit hD
        rw [hH] at hmem
        simp only [List.mem_singleton, Prod.mk.injEq] at hmem
        obtain ⟨_, _, rfl⟩ := hmem
        exact Finset.mem_insert_self _ _
      · exact Finset.mem_insert_of_mem hs0
    · exact hA.cfdom
    · exact hA.cmspace
    · exact hA.cmkeys
  obtain ⟨hA2, hs2, hper2, hproc2, ⟨kp, hkp, hcm2, hh2⟩⟩ :=
    relax_fold (get_neighbors s grid) ⟨rest, st.CM, st.CF, st.pc, st.gen⟩
      (fun x hx => hx) hA1 hs_cm
  refine ⟨⟨hA2, ?_⟩, ⟨kp, ?_, hcm2, hh2, hperm.length_eq⟩⟩
  · intro u hu x hx
    rcases Finset.mem_insert.mp hu with rfl | hu2
    · obtain ⟨cv, hcv, hcvle⟩ := hproc2 x hx
      exact ⟨c, cv, hs2, hcv, by omega⟩
    · obtain ⟨du, cv, h1, h2, h3⟩ := hsucc u hu2 x hx
      exact ⟨du, cv, hper2 _ _ h1, hper2 _ _ h2, h3⟩
  · have := get_neighbors_length_le s grid
    omega

/-- Any result the ucs loop returns is a plan that clears all dirt and
is no longer than any other such plan. -/
theorem ucs_loop_found {grid : List (List Char)} {tb : Nat → Nat} {s0 : State} :
    ∀ (fuel : Nat) (st : UcsState) (exp : Nat) (Done : Finset State) (L : Nat)
      (r : Result), UcsInv grid tb s0 st Done L →
      ucsLoop grid tb fuel st exp = .found r →
      SolvesFrom grid s0 r.path ∧
      ∀ acts, SolvesFrom grid s0 acts → r.path.length ≤ acts.length := by
  intro fuel
  induction fuel with
  | zero =>
    intro st exp Done L r hInv h
    cases h
  | succ f ih =>
    intro st exp Done L r hInv h
    rw [ucsLoop_succ] at h
    cases hpop : popMin st.H with
    | none =>
      rw [hpop] at h
      cases h
    | some pr =>
      obtain ⟨⟨c, k, s⟩, rest⟩ := pr
      rw [hpop] at h
      dsimp only at h
      by_cases hgoal : s.dirty = ∅
      · rw [if_pos hgoal] at h
        have hs_cm : lookupA st.CM s = some c := hInv.1.hcm _ (popMin_mem hpop)
        have hchain := hInv.1.cmchain s c hs_cm
        obtain ⟨pp, hrec, hlen, hex⟩ := vchain_recon hchain
        rw [hrec] at h
        dsimp only at h
        injection h with h
        subst h
        constructor
        · exact ⟨s, hex, hgoal⟩
        · rintro acts ⟨t, hext, htd⟩
          have htr := exec_reach hext
          have htnd : t ∉ Done := fun htD => hInv.1.dgoal t htD htd
          have hc := pop_le_reach hInv hpop t htnd acts.length htr
          simp only
          omega
      · rw [if_neg hgoal] at h
        obtain ⟨hInv2, _⟩ := ucs_iter_preserve hInv hpop hgoal
        exact ih _ _ _ _ r hInv2 h

/-- If the ucs loop exhausts its frontier, no action sequence clears
all dirt. -/
theorem ucs_loop_noSolution {grid : List (List Char)} {tb : Nat → Nat} {s0 : State} :
    ∀ (fuel : Nat) (st : UcsState) (exp : Nat) (Done : Finset State) (L : Nat),
      UcsInv grid tb s0 st Done L →
      ucsLoop grid tb fuel st exp = .noSolution →
      ∀ acts, ¬ SolvesFrom grid s0 acts := by
  intro fuel
  induction fuel with
  | zero =>
    intro st exp Done L hInv h
    cases h
  | succ f ih =>
    intro st exp Done L hInv h
    rw [ucsLoop_succ] at h
    cases hpop : popMin st.H with
    | none =>
      have hH : st.H = [] := popMin_none hpop
      rintro acts ⟨t, hext, htd⟩
      have hreach_done : ∀ v m, Reach grid s0 v m → v ∈ Done := by
        intro v m hr
        induction hr with
        | refl =>
          rcases hInv.1.cmloc s0 0 hInv.1.cms0 with hD | ⟨k2, hk⟩
          · exact hD
          · rw [hH] at hk
            cases hk
        | tail hru happ ihu =>
          obtain ⟨du, cv, _, hlv, _⟩ := hInv.2 _ ihu _ (mem_of_applyA happ)
          rcases hInv.1.cmloc _ cv hlv with hD | ⟨k2, hk⟩
          · exact hD
          · rw [hH] at hk
            cases hk
      exact hInv.1.dgoal t (hreach_done t acts.length (exec_reach hext)) htd
    | some pr =>
      obtain ⟨⟨c, k, s⟩, rest⟩ := pr
      rw [hpop] at h
      dsimp only at h
      by_cases hgoal : s.dirty = ∅
      · rw [if_pos hgoal] at h
        cases hrec : reconstruct_path st.CF s (c + 1) with
        | none =>
          rw [hrec] at h
          cases h
        | some p =>
          rw [hrec] at h
          cases h
      · rw [if_neg hgoal] at h
        obtain ⟨hInv2, _⟩ := ucs_iter_preserve hInv hpop hgoal
        exact ih _ _ _ _ hInv2 h

/-- cost_so_far never records more states than the finite state space
holds. -/
theorem ucs_cm_le_card {grid : List (List Char)} {tb : Nat → Nat} {s0 : State}
    {st : UcsState} {Done : Finset State} {L : Nat}
    (hA : UcsInvA grid tb s0 st Done L) :
    st.CM.length ≤ (stateSpace grid s0).card := by
  have h1 : (st.CM.map (fun p => p.1)).toFinset ⊆ stateSpace grid s0 := by
    intro v hv
    rw [List.mem_toFinset] at hv
    cases hcv : lookupA st.CM v with
    | none => exact absurd hv ((lookupA_eq_none st.CM v).mp hcv)
    | some cv => exact hA.cmspace v cv hcv
  have h2 := Finset.card_le_card h1
  rw [List.toFinset_card_of_nodup hA.cmkeys] at h2
  simpa using h2

/-- With fuel above the measure, the ucs loop cannot run out of fuel. -/
theorem ucs_loop_term {grid : List (List Char)} {tb : Nat → Nat} {s0 : State} :
    ∀ (fuel : Nat) (st : UcsState) (exp : Nat) (Done : Finset State) (L : Nat),
      UcsInv grid tb s0 st Done L →
      ucsMeasure grid s0 st < fuel →
      ucsLoop grid tb fuel st exp ≠ .fuelOut := by
  intro fuel
  induction fuel with
  | zero =>
    intro st exp Done L hInv hm
    omega
  | succ f ih =>
    intro st exp Done L hInv hm
    rw [ucsLoop_succ]
    cases hpop : popMin st.H with
    | none => simp
    | some pr =>
      obtain ⟨⟨c, k, s⟩, rest⟩ := pr
      dsimp only
      by_cases hgoal : s.dirty = ∅
      · rw [if_pos hgoal]
        have hs_cm : lookupA st.CM s = some c := hInv.1.hcm _ (popMin_mem hpop)
        obtain ⟨pp, hrec, _, _⟩ := vchain_recon (hInv.1.cmchain s c hs_cm)
        rw [hrec]
        simp
      · rw [if_neg hgoal]
        obtain ⟨hInv2, kp, hkp, hcm2, hh2, hlen⟩ := ucs_iter_preserve hInv hpop hgoal
        apply ih _ _ _ _ hInv2
        have hle := ucs_cm_le_card hInv2.1
        unfold ucsMeasure at *
        omega

/- ------------------------------------------------------------------ -/
/- Lemmas: dfs.                                                       -/
/- ------------------------------------------------------------------ -/

theorem dfsLoop_nil (grid : List (List Char)) (f : Nat) (visited : Finset State)
    (gen exp : Nat) : dfsLoop grid (f + 1) [] visited gen exp = .noSolution := rfl

theorem dfsLoop_cons (grid : List (List Char)) (f : Nat) (s : State)
    (path : List Char) (rest : List (State × List Char)) (visited : Finset State)
    (gen exp : Nat) :
    dfsLoop grid (f + 1) ((s, path) :: rest) visited gen exp =
      if s ∈ visited then dfsLoop grid f rest visited gen exp
      else
        if s.dirty = ∅ then .found ⟨path, gen, exp + 1⟩
        else
          dfsLoop grid f
            (((get_neighbors s grid).filter (fun x => decide (x.2 ∉ insert s visited))).map
                (fun x => (x.2, path ++ [x.1])) ++ rest)
            (insert s visited)
            (gen + ((get_neighbors s grid).filter
              (fun x => decide (x.2 ∉ insert s visited))).length)
            (exp + 1) := rfl

/-- The dfs loop invariant is preserved and the stack stays inside the
finite state space. -/
theorem dfs_loop_term {grid : List (List Char)} {s0 : State} :
    ∀ (fuel : Nat) (stack : List (State × List Char)) (visited : Finset State)
      (gen exp : Nat), DfsInv grid s0 stack visited →
      dfsMeasure grid s0 stack visited < fuel →
      dfsLoop grid fuel stack visited gen exp ≠ .fuelOut := by
  intro fuel
  induction fuel with
  | zero =>
    intro stack visited gen exp hInv hm
    omega
  | succ f ih =>
    intro stack visited gen exp hInv hm
    cases stack with
    | nil =>
      rw [dfsLoop_nil]
      simp
    | cons p rest =>
      obtain ⟨s, path⟩ := p
      rw [dfsLoop_cons]
      have hsp : s ∈ stateSpace grid s0 := hInv.1 (s, path) (List.mem_cons_self _ _)
      have hrest : DfsInv grid s0 rest visited :=
        ⟨fun q hq => hInv.1 q (List.mem_cons_of_mem _ hq), hInv.2⟩
      by_cases hv : s ∈ visited
      · rw [if_pos hv]
        apply ih _ _ _ _ hrest
        unfold dfsMeasure at *
        simp only [List.length_cons] at hm
        omega
      · rw [if_neg hv]
        by_cases hg : s.dirty = ∅
        · rw [if_pos hg]
          simp
        · rw [if_neg hg]
          have hvis2 : insert s visited ⊆ stateSpace grid s0 := by
            intro t ht
            rcases Finset.mem_insert.mp ht with rfl | ht2
            · exact hsp
            · exact hInv.2 ht2
          apply ih _ _ _ _ ⟨?_, hvis2⟩
          · -- measure decreases
            unfold dfsMeasure at *
            have hcard : (insert s visited).card = visited.card + 1 :=
              Finset.card_insert_of_not_mem hv
            have hcardle : (insert s visited).card ≤ (stateSpace grid s0).card :=
              Finset.card_le_card hvis2
            have hlen1 : (((get_neighbors s grid).filter
                (fun x => decide (x.2 ∉ insert s visited))).map
                  (fun x => (x.2, path ++ [x.1]))).length ≤ 5 := by
              rw [List.length_map]
              exact le_trans (List.length_filter_le _ _) (get_neighbors_length_le s grid)
            simp only [List.length_append, List.length_cons] at *
            omega
          · -- stacked states stay in the space
            intro q hq
            rcases List.mem_append.mp hq with hq1 | hq2
            · rw [List.mem_map] at hq1
              obtain ⟨x, hx1, hx2⟩ := hq1
              have hx3 : x ∈ get_neighbors s grid := List.mem_of_mem_filter hx1
              have := neighbors_space hsp hx3
              rw [← hx2]
              exact this
            · exact hInv.1 q (List.mem_cons_of_mem _ hq2)

/- ------------------------------------------------------------------ -/
/- Lemmas: ucs depends on the identity keys only through their order. -/
/- ------------------------------------------------------------------ -/

theorem entryLE_lift_iff {t1 t2 : Nat → Nat}
    (hiso : ∀ i j, t1 i ≤ t1 j ↔ t2 i ≤ t2 j) (e f : Nat × Nat × State) :
    entryLE (liftE t1 e) (liftE t1 f) ↔ entryLE (liftE t2 e) (liftE t2 f) := by
  unfold entryLE liftE
  dsimp only
  rw [hiso]

theorem popMin_lift {t1 t2 : Nat → Nat}
    (hiso : ∀ i j, t1 i ≤ t1 j ↔ t2 i ≤ t2 j) :
    ∀ base : List (Nat × Nat × State),
    (popMin (base.map (liftE t1)) = none ∧ popMin (base.map (liftE t2)) = none) ∨
    (∃ (e : Nat × Nat × State) (rest : List (Nat × Nat × State)),
      popMin (base.map (liftE t1)) = some (liftE t1 e, rest.map (liftE t1)) ∧
      popMin (base.map (liftE t2)) = some (liftE t2 e, rest.map (liftE t2))) := by
  intro base
  induction base with
  | nil => exact Or.inl ⟨rfl, rfl⟩
  | cons e es ih =>
    rcases ih with ⟨h1, h2⟩ | ⟨m, rest, h1, h2⟩
    · refine Or.inr ⟨e, [], ?_, ?_⟩
      · simp only [List.map_cons, popMin]
        rw [h1]
        rfl
      · simp only [List.map_cons, popMin]
        rw [h2]
        rfl
    · by_cases hle : entryLE (liftE t1 e) (liftE t1 m)
      · have hle2 : entryLE (liftE t2 e) (liftE t2 m) :=
          (entryLE_lift_iff hiso e m).mp hle
        refine Or.inr ⟨e, es, ?_, ?_⟩
        · simp only [List.map_cons, popMin]
          rw [h1]
          dsimp only
          rw [if_pos hle]
        · simp only [List.map_cons, popMin]
          rw [h2]
          dsimp only
          rw [if_pos hle2]
      · have hle2 : ¬ entryLE (liftE t2 e) (liftE t2 m) :=
          fun h => hle ((entryLE_lift_iff hiso e m).mpr h)
        refine Or.inr ⟨m, e :: rest, ?_, ?_⟩
        · simp only [List.map_cons, popMin]
          rw [h1]
          dsimp only
          rw [if_neg hle]
        · simp only [List.map_cons, popMin]
          rw [h2]
          dsimp only
          rw [if_neg hle2]

theorem relaxOne_lift (t : Nat → Nat) (c : Nat) (s : State)
    (base : List (Nat × Nat × State)) (CM : List (State × Nat))
    (CF : List (State × Option (Char × State))) (pc gen : Nat) (x : Char × State) :
    relaxOne t c s ⟨base.map (liftE t), CM, CF, pc, gen⟩ x =
      liftS t (relaxOne (fun i => i) c s ⟨base, CM, CF, pc, gen⟩ x) := by
  unfold relaxOne liftS
  cases h : lookupA CM x.2 with
  | none => simp [liftE]
  | some cv =>
    dsimp only
    split_ifs with hlt
    · simp [liftE]
    · rfl

theorem relaxFold_lift (t : Nat → Nat) (c : Nat) (s : State) :
    ∀ (xs : List (Char × State)) (base : List (Nat × Nat × State))
      (CM : List (State × Nat)) (CF : List (State × Option (Char × State)))
      (pc gen : Nat),
      xs.foldl (relaxOne t c s) ⟨base.map (liftE t), CM, CF, pc, gen⟩ =
        liftS t (xs.foldl (relaxOne (fun i => i) c s) ⟨base, CM, CF, pc, gen⟩) := by
  intro xs
  induction xs with
  | nil => intro base CM CF pc gen; rfl
  | cons x xs ih =>
    intro base CM CF pc gen
    simp only [List.foldl_cons]
    rw [relaxOne_lift]
    rcases hst : relaxOne (fun i => i) c s ⟨base, CM, CF, pc, gen⟩ x with
      ⟨H2, CM2, CF2, pc2, gen2⟩
    exact ih H2 CM2 CF2 pc2 gen2

theorem relaxAll_lift (grid : List (List Char)) (t : Nat → Nat) (c : Nat) (s : State)
    (base : List (Nat × Nat × State)) (CM : List (State × Nat))
    (CF : List (State × Option (Char × State))) (pc gen : Nat) :
    relaxAll grid t c s ⟨base.map (liftE t), CM, CF, pc, gen⟩ =
      liftS t (relaxAll grid (fun i => i) c s ⟨base, CM, CF, pc, gen⟩) := by
  unfold relaxAll
  exact relaxFold_lift t c s (get_neighbors s grid) base CM CF pc gen

/-- The ucs loop observes identity keys only through order comparisons:
two key assignments that order pushes the same way yield identical
outcomes. -/
theorem ucsLoop_lift {grid : List (List Char)} {t1 t2 : Nat → Nat}
    (hiso : ∀ i j, t1 i ≤ t1 j ↔ t2 i ≤ t2 j) :
    ∀ (fuel : Nat) (base : List (Nat × Nat × State)) (CM : List (State × Nat))
      (CF : List (State × Option (Char × State))) (pc gen exp : Nat),
      ucsLoop grid t1 fuel ⟨base.map (liftE t1), CM, CF, pc, gen⟩ exp =
        ucsLoop grid t2 fuel ⟨base.map (liftE t2), CM, CF, pc, gen⟩ exp := by
  intro fuel
  induction fuel with
  | zero => intro base CM CF pc gen exp; rfl
  | succ f ih =>
    intro base CM CF pc gen exp
    rw [ucsLoop_succ, ucsLoop_succ]
    rcases popMin_lift hiso base with ⟨h1, h2⟩ | ⟨⟨c, i, s⟩, rest, h1, h2⟩
    · rw [h1, h2]
    · rw [h1, h2]
      dsimp only [liftE]
      by_cases hgoal : s.dirty = ∅
      · rw [if_pos hgoal, if_pos hgoal]
      · rw [if_neg hgoal, if_neg hgoal]
        rw [relaxAll_lift grid t1 c s rest CM CF pc gen,
          relaxAll_lift grid t2 c s rest CM CF pc gen]
        rcases hst : relaxAll grid (fun i => i) c s ⟨rest, CM, CF, pc, gen⟩ with
          ⟨H2, CM2, CF2, pc2, gen2⟩
        exact ih H2 CM2 CF2 pc2 gen2 (exp + 1)

/-- ucs outcomes agree for any two identity-key assignments that induce
the same order on pushes. -/
theorem ucs_lift {grid : List (List Char)} {s0 : State} {t1 t2 : Nat → Nat}
    (hiso : ∀ i j, t1 i ≤ t1 j ↔ t2 i ≤ t2 j) (fuel : Nat) :
    ucs grid s0 t1 fuel = ucs grid s0 t2 fuel := by
  unfold ucs
  have h1 : [((0 : Nat), t1 0, s0)] =
      ([((0 : Nat), (0 : Nat), s0)]).map (liftE t1) := rfl
  have h2 : [((0 : Nat), t2 0, s0)] =
      ([((0 : Nat), (0 : Nat), s0)]).map (liftE t2) := rfl
  rw [h1, h2]
  exact ucsLoop_lift hiso fuel [((0 : Nat), (0 : Nat), s0)] [(s0, 0)] [(s0, none)] 1 0 0

/- ------------------------------------------------------------------ -/
/- Lemmas: parsing.                                                   -/
/- ------------------------------------------------------------------ -/

theorem lastOr_none {α : Type} (l : List α) : lastOr l none = l.getLast? := by
  unfold lastOr
  cases l.getLast? <;> rfl

theorem parse_world_decode_err {bs : List Nat} (h : decodeSig bs = none) :
    parse_world bs = .error .unicode := by
  unfold parse_world
  rw [h]

theorem parse_world_bom {bs : List Nat} {cs : List Char}
    (h : decodeUtf8 bs = some cs) :
    parse_world (0xEF :: 0xBB :: 0xBF :: bs) = parse_lines cs := by
  unfold parse_world
  have hd : decodeSig (0xEF :: 0xBB :: 0xBF :: bs) = decodeUtf8 bs := rfl
  rw [hd, h]

theorem parse_lines_ok {cs : List Char} {a b : Int}
    (h0 : pyInt ((splitNl cs).getD 0 []) = some a)
    (h1 : pyInt ((splitNl cs).getD 1 []) = some b) :
    ∃ out, parse_lines cs = .ok out := by
  unfold parse_lines
  dsimp only
  rw [h0, h1]
  exact ⟨_, rfl⟩

theorem parse_lines_err0 {cs : List Char}
    (h0 : pyInt ((splitNl cs).getD 0 []) = none) :
    parse_lines cs = .error .value := by
  unfold parse_lines
  dsimp only
  rw [h0]

theorem parse_lines_err1 {cs : List Char} {a : Int}
    (h0 : pyInt ((splitNl cs).getD 0 []) = some a)
    (h1 : pyInt ((splitNl cs).getD 1 []) = none) :
    parse_lines cs = .error .value := by
  unfold parse_lines
  dsimp only
  rw [h0, h1]

theorem mainModel_parse_err {alg : String} {bs : List Nat} {tb : Nat → Nat}
    {fuel : Nat} {e : ParseErr} (h : parse_world bs = .error e) :
    mainModel alg bs tb fuel = some ([], 1) := by
  unfold mainModel
  rw [h]

theorem parseRowChar_start (r : Nat)
    (acc : List Char × Option (Int × Int) × Finset (Int × Int)) (x : Nat × Char) :
    (parseRowChar r acc x).2.1 =
      if x.2 = '@' then some (((r : Int)), ((x.1 : Int))) else acc.2.1 := by
  unfold parseRowChar
  split_ifs <;> rfl

theorem foldChar_start (r : Nat) :
    ∀ (l : List (Nat × Char)) (acc : List Char × Option (Int × Int) × Finset (Int × Int)),
    (l.foldl (parseRowChar r) acc).2.1 =
      lastOr (l.filterMap (fun x => if x.2 = '@' then
        some (((r : Int)), ((x.1 : Int))) else none)) acc.2.1 := by
  intro l
  induction l with
  | nil =>
    intro acc
    simp [lastOr]
  | cons x l ih =>
    intro acc
    rw [List.foldl_cons, ih]
    by_cases hx : x.2 = '@'
    · rw [List.filterMap_cons]
      simp only [hx, if_true]
      rw [lastOr_cons, parseRowChar_start]
      simp [hx]
    · rw [List.filterMap_cons]
      simp only [hx, if_false]
      rw [parseRowChar_start]
      simp [hx]

theorem parseRow_start (lines : List (List Char))
    (acc : List (List Char) × Option (Int × Int) × Finset (Int × Int)) (r : Nat) :
    (parseRow lines acc r).2.1 =
      lastOr ((pyStrip (lines.getD (2 + r) [])).enum.filterMap
        (fun x => if x.2 = '@' then some (((r : Int)), ((x.1 : Int))) else none))
        acc.2.1 := by
  unfold parseRow
  dsimp only
  rw [foldChar_start]

theorem foldRows_start (lines : List (List Char)) :
    ∀ (rs : List Nat) (acc : List (List Char) × Option (Int × Int) × Finset (Int × Int)),
    (rs.foldl (parseRow lines) acc).2.1 =
      lastOr (rs.flatMap (fun r => (pyStrip (lines.getD (2 + r) [])).enum.filterMap
        (fun x => if x.2 = '@' then some (((r : Int)), ((x.1 : Int))) else none)))
        acc.2.1 := by
  intro rs
  induction rs with
  | nil =>
    intro acc
    simp [lastOr]
  | cons r rs ih =>
    intro acc
    rw [List.foldl_cons, ih, List.flatMap_cons, lastOr_append, parseRow_start]

/-- The start position parse_world returns is the last agent marker in
reading order over the processed rows (None when there is none). -/
theorem parse_world_start {bs : List Nat} {g : List (List Char)}
    {st : Option (Int × Int)} {d : Finset (Int × Int)}
    (h : parse_world bs = .ok (g, st, d)) :
    ∃ cs rows, decodeSig bs = some cs ∧
      pyInt ((splitNl cs).getD 1 []) = some rows ∧
      st = lastAgent (splitNl cs) rows.toNat := by
  unfold parse_world at h
  cases hdec : decodeSig bs with
  | none =>
    rw [hdec] at h
    cases h
  | some cs =>
    rw [hdec] at h
    dsimp only at h
    unfold parse_lines at h
    dsimp only at h
    cases h0 : pyInt ((splitNl cs).getD 0 []) with
    | none =>
      rw [h0] at h
      cases h
    | some a =>
      rw [h0] at h
      dsimp only at h
      cases h1 : pyInt ((splitNl cs).getD 1 []) with
      | none =>
        rw [h1] at h
        cases h
      | some rows =>
        rw [h1] at h
        dsimp only at h
        injection h with h
        refine ⟨cs, rows, rfl, h1, ?_⟩
        have hst : st = ((List.range rows.toNat).foldl (parseRow (splitNl cs))
            ([], none, ∅)).2.1 := by
          rw [h]
        rw [hst, foldRows_start]
        unfold lastAgent agentCells
        rw [lastOr_none]

/- ------------------------------------------------------------------ -/
/- Top-level search facts.                                            -/
/- ------------------------------------------------------------------ -/

/-- Any path ucs returns clears all dirt and is of minimal length. -/
theorem ucs_found_opt {grid : List (List Char)} {s0 : State} {tb : Nat → Nat}
    {fuel : Nat} {r : Result} (h : ucs grid s0 tb fuel = .found r) :
    SolvesFrom grid s0 r.path ∧
      ∀ acts, SolvesFrom grid s0 acts → r.path.length ≤ acts.length :=
  ucs_loop_found fuel _ 0 ∅ 0 r (ucs_init grid tb s0) h

/-- If ucs exhausts its frontier, the world is unsolvable from s0. -/
theorem ucs_noSolution_none {grid : List (List Char)} {s0 : State} {tb : Nat → Nat}
    {fuel : Nat} (h : ucs grid s0 tb fuel = .noSolution) :
    ∀ acts, ¬ SolvesFrom grid s0 acts :=
  ucs_loop_noSolution fuel _ 0 ∅ 0 (ucs_init grid tb s0) h

/-- ucs terminates: with enough fuel it reports a plan or frontier
exhaustion. -/
theorem ucs_terminates (grid : List (List Char)) (s0 : State) (tb : Nat → Nat) :
    ∃ fuel, (∃ r, ucs grid s0 tb fuel = .found r) ∨
      ucs grid s0 tb fuel = .noSolution := by
  refine ⟨ucsMeasure grid s0 ⟨[(0, tb 0, s0)], [(s0, 0)], [(s0, none)], 1, 0⟩ + 1, ?_⟩
  have hne := ucs_loop_term
    (ucsMeasure grid s0 ⟨[(0, tb 0, s0)], [(s0, 0)], [(s0, none)], 1, 0⟩ + 1)
    ⟨[(0, tb 0, s0)], [(s0, 0)], [(s0, none)], 1, 0⟩ 0 ∅ 0 (ucs_init grid tb s0)
    (by omega)
  cases hout : ucs grid s0 tb
      (ucsMeasure grid s0 ⟨[(0, tb 0, s0)], [(s0, 0)], [(s0, none)], 1, 0⟩ + 1) with
  | fuelOut => exact absurd hout hne
  | noSolution => exact Or.inr rfl
  | found r => exact Or.inl ⟨r, rfl⟩

/-- dfs terminates: with enough fuel it reports a plan or frontier
exhaustion. -/
theorem dfs_terminates (grid : List (List Char)) (s0 : State) :
    ∃ fuel, (∃ r, dfs grid s0 fuel = .found r) ∨
      dfs grid s0 fuel = .noSolution := by
  have hInv : DfsInv grid s0 [(s0, [])] ∅ := by
    constructor
    · intro q hq
      simp only [List.mem_singleton] at hq
      subst hq
      exact s0_mem_stateSpace grid s0
    · intro t ht
      exact absurd ht (Finset.not_mem_empty t)
  refine ⟨dfsMeasure grid s0 [(s0, [])] ∅ + 1, ?_⟩
  have hne := dfs_loop_term (dfsMeasure grid s0 [(s0, [])] ∅ + 1) [(s0, [])] ∅ 0 0
    hInv (by omega)
  cases hout : dfs grid s0 (dfsMeasure grid s0 [(s0, [])] ∅ + 1) with
  | fuelOut => exact absurd hout hne
  | noSolution => exact Or.inr rfl
  | found r => exact Or.inl ⟨r, rfl⟩

/-- On a dirt-free start dfs succeeds in its first iteration with the
empty path, 0 generated, 1 expanded. -/
theorem dfs_empty_dirty (grid : List (List Char)) (s0 : State) (fuel : Nat)
    (h : s0.dirty = ∅) : dfs grid s0 (fuel + 1) = .found ⟨[], 0, 1⟩ := by
  unfold dfs
  rw [dfsLoop_cons, if_neg (Finset.not_mem_empty s0), if_pos h]

/-- On a dirt-free start ucs succeeds in its first iteration with the
empty path, 0 generated, 1 expanded. -/
theorem ucs_empty_dirty (grid : List (List Char)) (s0 : State) (tb : Nat → Nat)
    (fuel : Nat) (h : s0.dirty = ∅) : ucs grid s0 tb (fuel + 1) = .found ⟨[], 0, 1⟩ := by
  unfold ucs
  rw [ucsLoop_succ]
  have hpop : popMin [((0 : Nat), tb 0, s0)] = some ((0, tb 0, s0), []) := rfl
  rw [hpop]
  dsimp only
  rw [if_pos h]
  have hl : lookupA [(s0, (none : Option (Char × State)))] s0 = some none := by
    rw [lookupA_cons_eq, if_pos rfl]
  have hrec : reconstruct_path [(s0, none)] s0 1 = some [] := by
    rw [reconstruct_path_succ, hl]
  rw [hrec]

/- ------------------------------------------------------------------ -/
/- Claim theorems.                                                    -/
/- ------------------------------------------------------------------ -/

/-- C1: for every (rectangular) world with its uniform action cost of 1
and every start state from which some action sequence clears all dirt,
uniform-cost search (with any injective identity-key assignment, as
CPython id provides) produces an action sequence that clears all dirt
and is minimal in length among all such action sequences. -/
theorem C1_ucs_minimal (grid : List (List Char)) (s0 : State) (tb : Nat → Nat)
    (acts0 : List Char) (hinj : Function.Injective tb) (hrect : Rect grid)
    (hsolve : SolvesFrom grid s0 acts0) :
    ∃ fuel r, ucs grid s0 tb fuel = .found r ∧ SolvesFrom grid s0 r.path ∧
      ∀ acts, SolvesFrom grid s0 acts → r.path.length ≤ acts.length := by
  obtain ⟨fuel, hout⟩ := ucs_terminates grid s0 tb
  rcases hout with ⟨r, hr⟩ | hns
  · obtain ⟨hs, hm⟩ := ucs_found_opt hr
    exact ⟨fuel, r, hr, hs, hm⟩
  · exact absurd hsolve (ucs_noSolution_none hns acts0)

/-- Witness for C1 on the world `_*` with the agent at (0,0): the plan
E, V clears the dirt and ucs finds a minimal plan. -/
theorem C1_witness :
    Function.Injective (fun i : Nat => i) ∧ Rect [['_', '*']] ∧
      SolvesFrom [['_', '*']] ⟨(0, 0), {(0, 1)}⟩ ['E', 'V'] ∧
      (∃ fuel r, ucs [['_', '*']] ⟨(0, 0), {(0, 1)}⟩ (fun i => i) fuel = .found r ∧
        SolvesFrom [['_', '*']] ⟨(0, 0), {(0, 1)}⟩ r.path ∧
        ∀ acts, SolvesFrom [['_', '*']] ⟨(0, 0), {(0, 1)}⟩ acts →
          r.path.length ≤ acts.length) :=
  ⟨fun _ _ h => h, by decide, ⟨⟨(0, 1), ∅⟩, by decide, rfl⟩,
    C1_ucs_minimal [['_', '*']] ⟨(0, 0), {(0, 1)}⟩ (fun i => i) ['E', 'V']
      (fun _ _ h => h) (by decide) ⟨⟨(0, 1), ∅⟩, by decide, rfl⟩⟩

/-- C2 counterexample: the ucs frontier tie-break is CPython id(), not
a monotonically increasing push counter, so two invocations that
observe different identity orders produce different outputs on the
world `*@*` (paths E,V,W,W,V versus W,V,E,E,V). -/
theorem C2_counterexample :
    ucs [['*', '_', '*']] ⟨(0, 1), {(0, 0), (0, 2)}⟩ (fun i => i) 40 ≠
      ucs [['*', '_', '*']] ⟨(0, 1), {(0, 0), (0, 2)}⟩ (fun i => 100 - i) 40 := by
  decide

/-- C2 (amended): dfs consumes no identity input, so two invocations on
the same world coincide; ucs observes the id() values only through
order comparisons, so two invocations whose identity-key assignments
order pushes the same way produce identical outputs (actions and
counters).  Across invocations with differently ordered identity keys
the outputs may differ. -/
theorem C2_deterministic_amended (t1 t2 : Nat → Nat)
    (hiso : ∀ i j, t1 i ≤ t1 j ↔ t2 i ≤ t2 j) (grid : List (List Char))
    (s0 : State) (fuel : Nat) :
    ucs grid s0 t1 fuel = ucs grid s0 t2 fuel ∧
      dfs grid s0 fuel = dfs grid s0 fuel :=
  ⟨ucs_lift hiso fuel, rfl⟩

/-- Witness for C2 (amended) with two order-isomorphic key assignments. -/
theorem C2_witness :
    (∀ i j : Nat, i ≤ j ↔ i + 0 ≤ j + 0) ∧
      ucs [['*', '_', '*']] ⟨(0, 1), {(0, 0), (0, 2)}⟩ (fun i => i) 40 =
        ucs [['*', '_', '*']] ⟨(0, 1), {(0, 0), (0, 2)}⟩ (fun i => i + 0) 40 :=
  ⟨fun i j => Iff.rfl,
    (C2_deterministic_amended (fun i => i) (fun i => i + 0) (fun i j => Iff.rfl)
      [['*', '_', '*']] ⟨(0, 1), {(0, 0), (0, 2)}⟩ 40).1⟩

/-- C3 counterexample: a file declaring cols=3, rows=2 whose grid is a
single two-character row parses successfully — no ParseError is raised
for mismatched counts or short lines (the missing row is read as ''). -/
theorem C3_counterexample :
    parse_world [0x33, 0x0A, 0x32, 0x0A, 0x40, 0x2A, 0x0A] =
      .ok ([['_', '*'], []], some (0, 0), {(0, 1)}) := by
  decide

/-- C3 (amended): for a world file of at most 72 bytes — one chunk of
the lazy codecs reader, within which the first readline provably
reaches any bad byte — an invalid UTF-8 sequence makes parsing fail
with UnicodeDecodeError and the process exits nonzero with no output
(beyond one chunk the reader may never read the bad bytes: an
incomplete trailing sequence is silently dropped, and invalid bytes
after the consumed lines raise nothing); a leading byte-order mark is
stripped and tolerated; parsing fails (ValueError) when a header line
is not an integer; and whenever both header integers parse,
parse_world succeeds — declared row/column counts that do not match
the actual grid and grid lines shorter than the declared column count
are NOT rejected. -/
theorem C3_parse_amended :
    (∀ bs : List Nat, bs.length ≤ 72 → decodeSig bs = none →
      parse_world bs = .error .unicode ∧
      ∀ (alg : String) (tb : Nat → Nat) (fuel : Nat),
        mainModel alg bs tb fuel = some ([], 1)) ∧
    (∀ (bs : List Nat) (cs : List Char), decodeUtf8 bs = some cs →
      parse_world (0xEF :: 0xBB :: 0xBF :: bs) = parse_lines cs) ∧
    (∀ cs : List Char,
      (pyInt ((splitNl cs).getD 0 []) = none ∨
        (∃ a, pyInt ((splitNl cs).getD 0 []) = some a ∧
          pyInt ((splitNl cs).getD 1 []) = none)) →
      parse_lines cs = .error .value) ∧
    (∀ (cs : List Char) (a b : Int), pyInt ((splitNl cs).getD 0 []) = some a →
      pyInt ((splitNl cs).getD 1 []) = some b → ∃ out, parse_lines cs = .ok out) := by
  refine ⟨?_, ?_, ?_, ?_⟩
  · intro bs _ h
    exact ⟨parse_world_decode_err h,
      fun alg tb fuel => mainModel_parse_err (parse_world_decode_err h)⟩
  · intro bs cs h
    exact parse_world_bom h
  · rintro cs (h0 | ⟨a, h0, h1⟩)
    · exact parse_lines_err0 h0
    · exact parse_lines_err1 h0 h1
  · intro cs a b h0 h1
    exact parse_lines_ok h0 h1

/-- Witness for C3 (amended): an undecodable byte fails, a BOM-prefixed
file parses like the bare file, a non-integer header fails, and integer
headers always succeed. -/
theorem C3_witness :
    parse_world [0xFF] = .error .unicode ∧
    parse_world [0xEF, 0xBB, 0xBF, 0x78] = parse_lines ['x'] ∧
    parse_lines ['z'] = .error .value ∧
    (∃ out, parse_lines ['3', '\n', '1'] = .ok out) :=
  ⟨(C3_parse_amended.1 [0xFF] (by decide) (by decide)).1,
    C3_parse_amended.2.1 [0x78] ['x'] (by decide),
    C3_parse_amended.2.2.1 ['z'] (Or.inl (by decide)),
    C3_parse_amended.2.2.2 ['3', '\n', '1'] 3 1 (by decide) (by decide)⟩

/-- C4: on the world file with header cols=3, rows=1 and grid row @*#,
uniform-cost search prints exactly E, V, then "2 nodes generated" and
"3 nodes expanded", for every identity-key assignment. -/
theorem C4_example_output (tb : Nat → Nat) :
    mainModel "uniform-cost" [0x33, 0x0A, 0x31, 0x0A, 0x40, 0x2A, 0x23, 0x0A] tb 10 =
      some (["E", "V", "2 nodes generated", "3 nodes expanded"], 0) := by
  have hp : parse_world [0x33, 0x0A, 0x31, 0x0A, 0x40, 0x2A, 0x23, 0x0A] =
      .ok ([['_', '*', '#']], some (0, 0), {(0, 1)}) := by decide
  unfold mainModel
  rw [hp]
  dsimp only
  rw [if_neg (by decide), if_pos rfl]
  have hu : ucs [['_', '*', '#']] ⟨(0, 0), {(0, 1)}⟩ tb 10 =
      .found ⟨['E', 'V'], 2, 3⟩ := rfl
  rw [hu]
  decide

/-- C5: on a rectangular world no move successor emitted by
get_neighbors lies outside the grid bounds or on a wall cell. -/
theorem C5_moves_legal (grid : List (List Char)) (s : State) (a : Char) (v : State)
    (hrect : Rect grid) (hmem : (a, v) ∈ get_neighbors s grid)
    (hmove : a = 'N' ∨ a = 'S' ∨ a = 'E' ∨ a = 'W') :
    inBounds grid v.position ∧
      (grid.getD v.position.1.toNat []).getD v.position.2.toNat '#' ≠ '#' := by
  rcases mem_get_neighbors hmem with ⟨_, hb, hc, _⟩ | ⟨hV, _, _⟩
  · exact ⟨hb, hc⟩
  · have ha : a = 'V' := hV
    rw [ha] at hmove
    rcases hmove with h | h | h | h <;> exact absurd h (by decide)

/-- Witness for C5 on the 1×2 world of open cells: the E-move from
(0,0) lands in bounds on a non-wall cell. -/
theorem C5_witness :
    Rect [['_', '_']] ∧
      (('E', (⟨(0, 1), (∅ : Finset (Int × Int))⟩ : State)) ∈
        get_neighbors ⟨(0, 0), ∅⟩ [['_', '_']]) ∧
      inBounds [['_', '_']] ((0 : Int), (1 : Int)) ∧
      ([['_', '_']].getD ((0 : Int)).toNat []).getD ((1 : Int)).toNat '#' ≠ '#' := by
  refine ⟨by decide, by decide, ?_⟩
  exact C5_moves_legal [['_', '_']] ⟨(0, 0), ∅⟩ 'E' ⟨(0, 1), ∅⟩ (by decide)
    (by decide) (Or.inr (Or.inr (Or.inl rfl)))

/-- C6: get_neighbors emits the N, S, E, W move candidates in that
order followed by the Vacuum candidate; every move successor keeps the
dirty set unchanged; and the Vacuum successor (same position, current
position erased from the dirty set) is emitted iff the current position
is dirty. -/
theorem C6_neighbor_order (s : State) (grid : List (List Char)) :
    get_neighbors s grid =
      moveOpt grid s 'N' (-1) 0 ++ moveOpt grid s 'S' 1 0 ++ moveOpt grid s 'E' 0 1 ++
        moveOpt grid s 'W' 0 (-1) ++ vacOpt s ∧
    (∀ x ∈ get_neighbors s grid,
      (x.1 = 'N' ∨ x.1 = 'S' ∨ x.1 = 'E' ∨ x.1 = 'W') → x.2.dirty = s.dirty) ∧
    (('V', (⟨s.position, s.dirty.erase s.position⟩ : State)) ∈ get_neighbors s grid ↔
      s.position ∈ s.dirty) := by
  refine ⟨get_neighbors_eq s grid, ?_, ?_⟩
  · intro x hx hmv
    rcases mem_get_neighbors hx with ⟨hd, _, _, _⟩ | ⟨hV, _, _⟩
    · exact hd
    · rw [hV] at hmv
      rcases hmv with h | h | h | h <;> exact absurd h (by decide)
  · constructor
    · intro hmem
      rcases mem_get_neighbors hmem with ⟨_, _, _, hmv⟩ | ⟨_, hpd, _⟩
      · rcases hmv with h | h | h | h <;> simp at h
      · exact hpd
    · intro hpd
      rw [get_neighbors_eq]
      refine List.mem_append.mpr (Or.inr ?_)
      unfold vacOpt
      rw [if_pos hpd]
      exact List.mem_singleton.mpr rfl

/-- C7: on any world whose start state has an empty dirty set, both
dfs and ucs return the empty action sequence, 0 nodes generated and
exactly 1 node expanded, in their first iteration. -/
theorem C7_empty_dirty (grid : List (List Char)) (s0 : State) (tb : Nat → Nat)
    (fuel : Nat) (h : s0.dirty = ∅) :
    dfs grid s0 (fuel + 1) = .found ⟨[], 0, 1⟩ ∧
      ucs grid s0 tb (fuel + 1) = .found ⟨[], 0, 1⟩ :=
  ⟨dfs_empty_dirty grid s0 fuel h, ucs_empty_dirty grid s0 tb fuel h⟩

/-- Witness for C7 on a 1×1 dirt-free world. -/
theorem C7_witness :
    (⟨(0, 0), ∅⟩ : State).dirty = ∅ ∧
      dfs [['_']] ⟨(0, 0), ∅⟩ 1 = .found ⟨[], 0, 1⟩ ∧
      ucs [['_']] ⟨(0, 0), ∅⟩ (fun i => i) 1 = .found ⟨[], 0, 1⟩ := by
  refine ⟨rfl, ?_⟩
  exact C7_empty_dirty [['_']] ⟨(0, 0), ∅⟩ (fun i => i) 0 rfl

/-- C8: whenever the world parses (with an agent present) and the
chosen strategy exhausts its frontier without popping a goal state, the
program prints nothing at all — no action lines and no counter lines —
and exits with status 0. -/
theorem C8_no_solution_silent (alg : String) (bs : List Nat) (tb : Nat → Nat)
    (fuel : Nat) (grid : List (List Char)) (p : Int × Int)
    (dirty : Finset (Int × Int))
    (hparse : parse_world bs = .ok (grid, some p, dirty))
    (hrun : (alg = "depth-first" ∧ dfs grid ⟨p, dirty⟩ fuel = .noSolution) ∨
      (alg = "uniform-cost" ∧ ucs grid ⟨p, dirty⟩ tb fuel = .noSolution)) :
    mainModel alg bs tb fuel = some ([], 0) := by
  unfold mainModel
  rw [hparse]
  dsimp only
  rcases hrun with ⟨rfl, hd⟩ | ⟨rfl, hu⟩
  · rw [if_pos rfl]
    rw [hd]
    rfl
  · rw [if_neg (by decide), if_pos rfl]
    rw [hu]
    rfl

/-- Witness for C8 on the world @#* whose dirt is unreachable. -/
theorem C8_witness :
    parse_world [0x33, 0x0A, 0x31, 0x0A, 0x40, 0x23, 0x2A, 0x0A] =
      .ok ([['_', '#', '*']], some (0, 0), {(0, 2)}) ∧
    dfs [['_', '#', '*']] ⟨(0, 0), {(0, 2)}⟩ 10 = .noSolution ∧
    mainModel "depth-first" [0x33, 0x0A, 0x31, 0x0A, 0x40, 0x23, 0x2A, 0x0A]
      (fun i => i) 10 = some ([], 0) := by
  refine ⟨by decide, by decide, ?_⟩
  exact C8_no_solution_silent "depth-first" [0x33, 0x0A, 0x31, 0x0A, 0x40, 0x23, 0x2A, 0x0A]
    (fun i => i) 10 [['_', '#', '*']] (0, 0) {(0, 2)} (by decide)
    (Or.inl ⟨rfl, by decide⟩)

/-- C9: on every finite world (any grid, any start state with its
finite dirty set) both dfs and ucs terminate, either by finding a plan
or by exhausting their frontier. -/
theorem C9_termination (grid : List (List Char)) (s0 : State) (tb : Nat → Nat)
    (hinj : Function.Injective tb) :
    (∃ fuel, (∃ r, dfs grid s0 fuel = .found r) ∨
      dfs grid s0 fuel = .noSolution) ∧
    (∃ fuel, (∃ r, ucs grid s0 tb fuel = .found r) ∨
      ucs grid s0 tb fuel = .noSolution) :=
  ⟨dfs_terminates grid s0, ucs_terminates grid s0 tb⟩

/-- Witness for C9 on a 1×1 world. -/
theorem C9_witness :
    Function.Injective (fun i : Nat => i) ∧
    ((∃ fuel, (∃ r, dfs [['_']] ⟨(0, 0), ∅⟩ fuel = .found r) ∨
        dfs [['_']] ⟨(0, 0), ∅⟩ fuel = .noSolution) ∧
      (∃ fuel, (∃ r, ucs [['_']] ⟨(0, 0), ∅⟩ (fun i => i) fuel = .found r) ∨
        ucs [['_']] ⟨(0, 0), ∅⟩ (fun i => i) fuel = .noSolution)) :=
  ⟨fun _ _ h => h, C9_termination [['_']] ⟨(0, 0), ∅⟩ (fun i => i) (fun _ _ h => h)⟩

/-- C10 counterexample: on a world file with no agent marker and no
dirt, the parser returns None for the start position, yet the
subsequent search does NOT fail: it terminates normally (exit status 0)
printing the counter lines, because the dirty-set test precedes any
call to get_neighbors. -/
theorem C10_counterexample :
    parse_world [0x31, 0x0A, 0x31, 0x0A, 0x5F, 0x0A] = .ok ([['_']], none, ∅) ∧
    mainModel "depth-first" [0x31, 0x0A, 0x31, 0x0A, 0x5F, 0x0A] (fun i => i) 1 =
      some (["0 nodes generated", "1 nodes expanded"], 0) := by
  constructor
  · decide
  · decide

/-- C10 (amended): the parser returns the position of the last agent
marker in reading order (None when there is none); with a None start
and a nonempty dirty set the search raises TypeError when get_neighbors
destructures the position (empty stdout, exit status 1); with a None
start and an empty dirty set the search succeeds immediately without
ever calling get_neighbors. -/
theorem C10_agent_marker_amended :
    (∀ (bs : List Nat) (g : List (List Char)) (st : Option (Int × Int))
      (d : Finset (Int × Int)), parse_world bs = .ok (g, st, d) →
      ∃ cs rows, decodeSig bs = some cs ∧
        pyInt ((splitNl cs).getD 1 []) = some rows ∧
        st = lastAgent (splitNl cs) rows.toNat) ∧
    (∀ (alg : String) (bs : List Nat) (tb : Nat → Nat) (fuel : Nat)
      (g : List (List Char)) (d : Finset (Int × Int)),
      (alg = "depth-first" ∨ alg = "uniform-cost") →
      parse_world bs = .ok (g, none, d) →
      (d ≠ ∅ → mainModel alg bs tb fuel = some ([], 1)) ∧
      (d = ∅ → mainModel alg bs tb fuel =
        some (["0 nodes generated", "1 nodes expanded"], 0))) := by
  refine ⟨fun bs g st d h => parse_world_start h, ?_⟩
  intro alg bs tb fuel g d halg hparse
  have hr : render ⟨[], 0, 1⟩ = ["0 nodes generated", "1 nodes expanded"] := by decide
  constructor
  · intro hd
    unfold mainModel
    rw [hparse]
    dsimp only
    rcases halg with rfl | rfl
    · rw [if_pos rfl]
      unfold noneStartRun
      rw [if_neg hd]
    · rw [if_neg (by decide), if_pos rfl]
      unfold noneStartRun
      rw [if_neg hd]
  · intro hd
    unfold mainModel
    rw [hparse]
    dsimp only
    rcases halg with rfl | rfl
    · rw [if_pos rfl]
      unfold noneStartRun
      rw [if_pos hd, hr]
    · rw [if_neg (by decide), if_pos rfl]
      unfold noneStartRun
      rw [if_pos hd, hr]

/-- Witness for C10 (amended): a file with two agent markers keeps the
last one, and the None-start worlds behave as described. -/
theorem C10_witness :
    parse_world [0x32, 0x0A, 0x31, 0x0A, 0x40, 0x40, 0x0A] =
      .ok ([['_', '_']], some (0, 1), ∅) ∧
    (∃ cs rows, decodeSig [0x32, 0x0A, 0x31, 0x0A, 0x40, 0x40, 0x0A] = some cs ∧
      pyInt ((splitNl cs).getD 1 []) = some rows ∧
      (some ((0 : Int), (1 : Int)) : Option (Int × Int)) =
        lastAgent (splitNl cs) rows.toNat) ∧
    mainModel "depth-first" [0x31, 0x0A, 0x31, 0x0A, 0x2A, 0x0A] (fun i => i) 3 =
      some ([], 1) := by
  refine ⟨by decide, ?_, ?_⟩
  · exact C10_agent_marker_amended.1 [0x32, 0x0A, 0x31, 0x0A, 0x40, 0x40, 0x0A]
      [['_', '_']] (some (0, 1)) ∅ (by decide)
  · exact (C10_agent_marker_amended.2 "depth-first" [0x31, 0x0A, 0x31, 0x0A, 0x2A, 0x0A]
      (fun i => i) 3 [['*']] {(0, 0)} (Or.inl rfl) (by decide)).1 (by decide)

/-- Witness for C4 at the identity key assignment. -/
theorem C4_witness :
    mainModel "uniform-cost" [0x33, 0x0A, 0x31, 0x0A, 0x40, 0x2A, 0x23, 0x0A]
      (fun i => i) 10 =
      some (["E", "V", "2 nodes generated", "3 nodes expanded"], 0) :=
  C4_example_output (fun i => i)

/-- Witness for C6: on a 1×2 world with dirt under the agent the Vacuum
successor is emitted. -/
theorem C6_witness :
    ('V', (⟨(0, 0), ({(0, 0)} : Finset (Int × Int)).erase (0, 0)⟩ : State)) ∈
      get_neighbors ⟨(0, 0), {(0, 0)}⟩ [['_', '_']] :=
  (C6_neighbor_order ⟨(0, 0), {(0, 0)}⟩ [['_', '_']]).2.2.mpr (by decide)
